import Mathlib

/-!
Verification of the image-to-worksheet processor of the Color-by-number
repository (src/services/imageProcessor.ts) against its specification.

The TypeScript source is shallowly embedded: typed arrays become functions
out of `Nat`, mutation becomes explicit state passing, and the only
nondeterminism of the source (the `Math.random()` draws used to seed the
k-means centroids, lines 36-43) is passed in as an explicit list `samples`
of drawn pixel indices.  Signed 8-bit storage (`Int8Array`) is modelled by
the wrapping function `int8`.  JavaScript `Math.round(s/n)` on nonnegative
integer operands is modelled by exact rational rounding `roundDiv`.
-/

namespace CBN

/-- Functional update of an array modelled as a function. -/
def updF {α : Type} (f : Nat → α) (i : Nat) (v : α) : Nat → α :=
  fun j => if j = i then v else f j

/-- The value stored when writing integer `n` into an `Int8Array` cell. -/
def int8 (n : Int) : Int := (n + 128) % 256 - 128

/-- JavaScript `Math.round(s / n)` for nonnegative integers `s`, `n`. -/
def roundDiv (s n : Nat) : Nat := (2 * s + n) / (2 * n)

/-- RGB color with integer channels, from `types.ts` (`interface RGB`). -/
structure RGB where
  r : Int
  g : Int
  b : Int
deriving DecidableEq

/-- `interface PaletteColor` of `types.ts`. -/
structure PaletteColor where
  id : Nat
  rgb : RGB
  hex : String
  textColor : String
  count : Nat
deriving DecidableEq

/-- `interface Region` of `types.ts`; `centroid` is the pair (x, y). -/
structure Region where
  id : Int
  colorId : Int
  pixels : List Nat
  centroid : Nat × Nat
  borderPixels : List Nat
deriving DecidableEq

/-- `interface ProcessedImage` of `types.ts`; the dense arrays
`pixelData` and `regionMap` are modelled as functions. -/
structure ProcessedImage where
  originalWidth : Nat
  originalHeight : Nat
  regions : List Region
  palette : List PaletteColor
  pixelData : Nat → Nat
  regionMap : Nat → Int

/-- Lowercase hexadecimal digits, as produced by JavaScript `toString(16)`. -/
def hexChars : List Char :=
  ['0', '1', '2', '3', '4', '5', '6', '7', '8', '9'] ++ ['a', 'b', 'c', 'd', 'e', 'f']

def hexDigitChar (n : Nat) : Char := hexChars.getD n '0'

/-- Digit list of `n` in base 16 (most significant first) with explicit
fuel; `fuel = n + 1` always suffices. -/
def hexDigitsAux : Nat → Nat → List Char
  | 0, n => [hexDigitChar n]
  | fuel + 1, n =>
    if n < 16 then [hexDigitChar n]
    else hexDigitsAux fuel (n / 16) ++ [hexDigitChar (n % 16)]

/-- Digit list of `n` in base 16 (most significant first), i.e. the
character content of JavaScript `n.toString(16)` for a natural `n`. -/
def hexDigits (n : Nat) : List Char := hexDigitsAux (n + 1) n

/-- Fixed-width base-16 digit expansion (used to describe `hexDigits` on
the 7-digit values produced by `rgbToHex`). -/
def padHex : Nat → Nat → List Char
  | 0, _ => []
  | k + 1, m => padHex k (m / 16) ++ [hexDigitChar (m % 16)]

/-- All three channels are in the byte range. -/
def InByteRange (c : RGB) : Prop :=
  0 ≤ c.r ∧ c.r ≤ 255 ∧ 0 ≤ c.g ∧ c.g ≤ 255 ∧ 0 ≤ c.b ∧ c.b ≤ 255

/-- `rgbToHex` of imageProcessor.ts:
`"#" + ((1 << 24) + (r << 16) + (g << 8) + b).toString(16).slice(1)`. -/
def rgbToHex (r g b : Int) : String :=
  String.mk ('#' :: (hexDigits (2 ^ 24 + r.toNat * 2 ^ 16 + g.toNat * 2 ^ 8 + b.toNat)).drop 1)

/-- `getContrastColor` of imageProcessor.ts: YIQ luminance test.  The
comparison `(299r + 587g + 114b)/1000 >= 128` is exact on integers. -/
def getContrastColor (r g b : Int) : String :=
  if 128 * 1000 ≤ r * 299 + g * 587 + b * 114 then "#000000" else "#ffffff"

/-- `colorDistSq` of imageProcessor.ts (squared Euclidean RGB distance). -/
def colorDistSq (c1 c2 : RGB) : Int :=
  (c1.r - c2.r) ^ 2 + (c1.g - c2.g) ^ 2 + (c1.b - c2.b) ^ 2

/-- Stable insertion of `x` into `l` ordered by `key` ascending (placed
before the first element with a not-smaller key), as JavaScript's stable
`Array.prototype.sort` with comparator `(a, b) => key a - key b` does. -/
def insertByKey {α : Type} (key : α → Int) (x : α) : List α → List α
  | [] => [x]
  | y :: ys => if key y < key x then y :: insertByKey key x ys else x :: y :: ys

/-- Stable sort by `key` ascending. -/
def sortByKey {α : Type} (key : α → Int) (l : List α) : List α :=
  l.foldr (insertByKey key) []

/-! ### Stage 1: k-means quantizer (imageProcessor.ts lines 31-89) -/

/-- The argmin inner loop: for one pixel `(r, g, b)`, the index of the
first centroid at strictly minimal squared distance (`minDist` starts at
`Infinity`, modelled by `Option`; `bestCluster` starts at 0). -/
def bestCluster (cents : List RGB) (r g b : Int) : Nat :=
  ((List.range cents.length).foldl
    (fun (acc : Nat × Option Int) c =>
      let cent := cents.getD c ⟨0, 0, 0⟩
      let d := (r - cent.r) ^ 2 + (g - cent.g) ^ 2 + (b - cent.b) ^ 2
      match acc.2 with
      | none => (c, some d)
      | some m => if d < m then (c, some d) else acc)
    (0, none)).1

/-- Per-pixel cluster choices of one k-means pass (the local
`bestCluster` values, before the `Int8Array` store). -/
def passAssign (data : Nat → Nat) (pc : Nat) (cents : List RGB) : List Nat :=
  (List.range pc).map
    (fun i => bestCluster cents (data (4 * i)) (data (4 * i + 1)) (data (4 * i + 2)))

/-- `counts[c]` accumulated over the pass. -/
def clusterCount (al : List Nat) (c : Nat) : Nat := al.countP (fun a => a == c)

/-- Channel sum `sums[c*3+off]` accumulated over the pass. -/
def clusterSum (data : Nat → Nat) (pc : Nat) (al : List Nat) (off c : Nat) : Nat :=
  ((List.range pc).zip al).foldl
    (fun s p => if p.2 == c then s + data (4 * p.1 + off) else s) 0

/-- One centroid-update step (lines 75-89): nonempty clusters move to the
rounded componentwise mean, empty clusters stay; `changed` records
whether any centroid moved. -/
def updateCentroids (data : Nat → Nat) (pc : Nat) (cents : List RGB) : List RGB × Bool :=
  let al := passAssign data pc cents
  let newCents := (List.range cents.length).map (fun c =>
    let cent := cents.getD c ⟨0, 0, 0⟩
    if 0 < clusterCount al c then
      RGB.mk (roundDiv (clusterSum data pc al 0 c) (clusterCount al c))
             (roundDiv (clusterSum data pc al 1 c) (clusterCount al c))
             (roundDiv (clusterSum data pc al 2 c) (clusterCount al c))
    else cent)
  (newCents, decide (¬ newCents = cents))

/-- The k-means main loop (`iterations = 10`): starting fuel 9 after the
first pass; returns (final centroids, centroids in force when the
assignments array was last rewritten). -/
def kmeansLoop (data : Nat → Nat) (pc : Nat) : List RGB → Nat → List RGB × List RGB
  | cents, 0 =>
      ((updateCentroids data pc cents).1, cents)
  | cents, fuel + 1 =>
      let u := updateCentroids data pc cents
      if u.2 then kmeansLoop data pc u.1 fuel else (u.1, cents)

/-- Initial centroids: the RGB bytes at the randomly drawn pixel indices
(lines 36-43); `samples` is the list of drawn values
`Math.floor(Math.random() * pixelCount)`. -/
def initialCentroids (data : Nat → Nat) (samples : List Nat) : List RGB :=
  samples.map (fun s =>
    RGB.mk (data (4 * s)) (data (4 * s + 1)) (data (4 * s + 2)))

/-- Result of stage 1. -/
def kmeansResult (data : Nat → Nat) (pc : Nat) (samples : List Nat) : List RGB × List RGB :=
  kmeansLoop data pc (initialCentroids data samples) 9

/-- The final content of the `Int8Array` `assignments`: the argmin indices
of the last executed pass, each stored through 8-bit signed wrap-around. -/
def quantizerAssignments (data : Nat → Nat) (pc : Nat) (samples : List Nat) : Nat → Int :=
  fun i =>
    int8 (Int.ofNat (bestCluster (kmeansResult data pc samples).2
      (data (4 * i)) (data (4 * i + 1)) (data (4 * i + 2))))

/-! ### Stage 2: palette compaction (lines 91-103) -/

/-- `Array.from(new Set(assignments)).sort((a, b) => a - b)`: the distinct
stored assignment values in ascending order. -/
def uniqueIndices (asg : Nat → Int) (pc : Nat) : List Int :=
  sortByKey id (((List.range pc).map asg).dedup)

/-- The compacted palette (lines 92-98); `centroids[oldIdx]` is modelled
by `getD` with a default that is unreachable on valid runs. -/
def buildPalette (cents : List RGB) (uniq : List Int) : List PaletteColor :=
  (List.range uniq.length).map (fun newIdx =>
    let oldIdx := uniq.getD newIdx 0
    let c := cents.getD oldIdx.toNat ⟨0, 0, 0⟩
    { id := newIdx + 1
      rgb := c
      hex := rgbToHex c.r c.g c.b
      textColor := getContrastColor c.r c.g c.b
      count := 0 })

/-- `remappedAssignments` (lines 100-103), an `Int8Array` again. -/
def remapAssign (asg : Nat → Int) (uniq : List Int) : Nat → Int :=
  fun i => int8 (Int.ofNat (uniq.indexOf (asg i)))

/-! ### Stage 3: region extraction by flood fill (lines 105-151) -/

/-- The 4-neighbor candidate list of pixel `p` (lines 128-133 and the
identical lists at lines 181 and 236): up, down, left, right, with `-1`
as the sentinel for a missing left/right neighbor. -/
def nbrs (w : Nat) (p : Nat) : List Int :=
  [(p : Int) - (w : Int),
   (p : Int) + (w : Int),
   if 0 < p % w then (p : Int) - 1 else -1,
   if p % w < w - 1 then (p : Int) + 1 else -1]

/-- Processing one neighbor candidate inside the flood-fill loop
(lines 135-140): on an in-bounds, unvisited, same-color neighbor, mark it
visited and push it. State is (visited, stack). -/
def pushOne (pc : Nat) (assign : Nat → Int) (color : Int)
    (st : (Nat → Bool) × List Nat) (n : Int) : (Nat → Bool) × List Nat :=
  if 0 ≤ n ∧ n < (pc : Int) ∧ st.1 n.toNat = false ∧ assign n.toNat = color
  then (updF st.1 n.toNat true, n.toNat :: st.2)
  else st

def pushNbrs (pc : Nat) (assign : Nat → Int) (color : Int)
    (ns : List Int) (st : (Nat → Bool) × List Nat) : (Nat → Bool) × List Nat :=
  ns.foldl (pushOne pc assign color) st

/-- The `while (stackPtr > 0)` flood-fill loop (lines 121-142): pop a
pixel, record it in `regionMap` and `regionPixels`, push its eligible
neighbors.  `fuel` is an upper bound on the number of iterations; the
caller passes `pc + 1`, which always suffices because each iteration
strictly decreases (unvisited count + stack size). -/
def floodLoop (w pc : Nat) (assign : Nat → Int) (color rid : Int) :
    Nat → (Nat → Int) → (Nat → Bool) → List Nat → List Nat →
    (Nat → Int) × (Nat → Bool) × List Nat
  | _, rmap, vis, [], pixels => (rmap, vis, pixels)
  | 0, rmap, vis, _ :: _, pixels => (rmap, vis, pixels)
  | fuel + 1, rmap, vis, p :: rest, pixels =>
      let rmap2 := updF rmap p rid
      let pixels2 := pixels ++ [p]
      let vs := pushNbrs pc assign color (nbrs w p) (vis, rest)
      floodLoop w pc assign color rid fuel rmap2 vs.1 vs.2 pixels2

/-- Extraction state: the dense `regionMap` (initialized to -1), the
visited bitmap, the region list and `currentRegionId`. -/
structure ExtractState where
  regionMap : Nat → Int
  visited : Nat → Bool
  regions : List Region
  nextId : Int

/-- The body of the scan loop `for (let i = 0; ...)` (lines 113-151). -/
def extractStep (w pc : Nat) (assign : Nat → Int) (st : ExtractState) (i : Nat) :
    ExtractState :=
  if st.visited i then st
  else
    let color := assign i
    let fl := floodLoop w pc assign color st.nextId (pc + 1)
      st.regionMap (updF st.visited i true) [i] []
    { regionMap := fl.1
      visited := fl.2.1
      regions := st.regions ++
        [{ id := st.nextId, colorId := color, pixels := fl.2.2,
           centroid := (0, 0), borderPixels := [] }]
      nextId := st.nextId + 1 }

def extractRegions (w pc : Nat) (assign : Nat → Int) : ExtractState :=
  (List.range pc).foldl (extractStep w pc assign)
    ⟨fun _ => -1, fun _ => false, [], 0⟩

/-! ### Stage 4: small-region merging (lines 153-221) -/

/-- `dynamicMinSize = Math.max(20, Math.floor(pixelCount / 40000))`. -/
def dynamicMinSize (pc : Nat) : Nat := Nat.max 20 (pc / 40000)

/-- Merge state: the `regionMap`, the region objects (`regionObjMap`,
which in the source keeps absorbed regions too) and the insertion-ordered
id set `activeRegions`. -/
structure MergeState where
  regionMap : Nat → Int
  regionList : List Region
  activeIds : List Int

def findRegion (rl : List Region) (rid : Int) : Option Region :=
  rl.find? (fun r => decide (r.id = rid))

/-- `(regionObjMap.get(a)?.pixels.length || 0)`, the sort key at
lines 162-164. -/
def sizeKey (rl : List Region) (rid : Int) : Int :=
  Int.ofNat (((findRegion rl rid).map (fun r => r.pixels.length)).getD 0)

/-- Neighbor discovery (lines 172-186): the distinct ids of active
regions 4-adjacent to `region`, in `Set` insertion order. -/
def collectNeighbors (w pc : Nat) (st : MergeState) (region : Region) : List Int :=
  region.pixels.foldl (fun acc p =>
    (nbrs w p).foldl (fun acc n =>
      if 0 ≤ n ∧ n < (pc : Int) then
        let nid := st.regionMap n.toNat
        if nid ≠ region.id ∧ st.activeIds.contains nid ∧ nid ∉ acc
        then acc ++ [nid] else acc
      else acc) acc) []

def defaultRegion : Region := ⟨0, 0, [], (0, 0), []⟩
def defaultPalette : PaletteColor := ⟨0, ⟨0, 0, 0⟩, "", "", 0⟩

/-- Best-neighbor selection (lines 188-207): the first neighbor id with
strictly minimal palette-color distance; `-1` when there is none. -/
def bestNeighborOf (pal : List PaletteColor) (rl : List Region)
    (region : Region) (nbrIds : List Int) : Int :=
  (nbrIds.foldl (fun (acc : Int × Option Int) nid =>
    let neighbor := (findRegion rl nid).getD defaultRegion
    let c1 := (pal.getD region.colorId.toNat defaultPalette).rgb
    let c2 := (pal.getD neighbor.colorId.toNat defaultPalette).rgb
    let diff := colorDistSq c1 c2
    match acc.2 with
    | none => (nid, some diff)
    | some m => if diff < m then (nid, some diff) else acc)
    ((-1 : Int), (none : Option Int))).1

/-- One turn of the merge pass (lines 167-220) for candidate id `rId`. -/
def mergeStep (w pc : Nat) (pal : List PaletteColor) (dms : Nat)
    (st : MergeState) (rId : Int) : MergeState :=
  match findRegion st.regionList rId with
  | none => st
  | some region =>
    if dms ≤ region.pixels.length then st
    else
      let nbrIds := collectNeighbors w pc st region
      let best := bestNeighborOf pal st.regionList region nbrIds
      if best = -1 then st
      else
        { regionMap := region.pixels.foldl (fun m p => updF m p best) st.regionMap
          regionList := st.regionList.map (fun r =>
            if r.id = best then { r with pixels := r.pixels ++ region.pixels } else r)
          activeIds := st.activeIds.erase region.id }

/-! ### Stage 5: finalization (lines 225-288) -/

/-- Border test (lines 236-249): some 4-neighbor candidate is out of
bounds (including the -1 sentinels) or mapped to a different region. -/
def isBorderPixel (w pc : Nat) (rmap : Nat → Int) (rid : Int) (p : Nat) : Bool :=
  (nbrs w p).any (fun n => n < 0 || (pc : Int) ≤ n || decide (rmap n.toNat ≠ rid))

/-- The sampled nearest-pixel search (lines 259-281) run when the rounded
mean centroid `(cx, cy)` falls outside the region. -/
def nearestPixel (w : Nat) (pixels : List Nat) (cx cy : Nat) : Nat :=
  let len := pixels.length
  let step := Nat.max 1 (len / 100)
  let cnt := (len + step - 1) / step
  ((List.range cnt).map (fun j => j * step)).foldl
    (fun (acc : Nat × Option Int) i =>
      let p := pixels.getD i 0
      let d := ((p % w : Nat) - (cx : Int) : Int) ^ 2 + ((p / w : Nat) - (cy : Int) : Int) ^ 2
      match acc.2 with
      | none => (p, some d)
      | some m => if d < m then (p, some d) else acc)
    (pixels.getD 0 0, (none : Option Int)) |>.1

/-- Region finalization (lines 230-285): border pixels, rounded mean
centroid, and the pull-inside correction. -/
def finalizeRegion (w pc : Nat) (rmap : Nat → Int) (region : Region) : Region :=
  let sumX := region.pixels.foldl (fun s p => s + p % w) 0
  let sumY := region.pixels.foldl (fun s p => s + p / w) 0
  let borders := region.pixels.filter (isBorderPixel w pc rmap region.id)
  let len := region.pixels.length
  let cx := roundDiv sumX len
  let cy := roundDiv sumY len
  if rmap (cy * w + cx) = region.id then
    { region with centroid := (cx, cy), borderPixels := borders }
  else
    let bestP := nearestPixel w region.pixels cx cy
    { region with centroid := (bestP % w, bestP / w), borderPixels := borders }

/-- `tempPalette[region.colorId].count += region.pixels.length`
(line 287), accumulated over the finalized regions. -/
def updateCounts (pal : List PaletteColor) (rs : List Region) : List PaletteColor :=
  rs.foldl (fun pal r =>
    (List.range pal.length).map (fun j =>
      let e := pal.getD j defaultPalette
      if (j : Int) = r.colorId then { e with count := e.count + r.pixels.length } else e))
    pal

/-! ### The assembled pipeline (`processImageForColoring`) -/

def pipeAssign (data : Nat → Nat) (pc : Nat) (samples : List Nat) : Nat → Int :=
  quantizerAssignments data pc samples

def pipeUnique (data : Nat → Nat) (pc : Nat) (samples : List Nat) : List Int :=
  uniqueIndices (pipeAssign data pc samples) pc

def pipePalette (data : Nat → Nat) (pc : Nat) (samples : List Nat) : List PaletteColor :=
  buildPalette (kmeansResult data pc samples).1 (pipeUnique data pc samples)

def pipeRemap (data : Nat → Nat) (pc : Nat) (samples : List Nat) : Nat → Int :=
  remapAssign (pipeAssign data pc samples) (pipeUnique data pc samples)

def pipeExtract (w : Nat) (data : Nat → Nat) (pc : Nat) (samples : List Nat) : ExtractState :=
  extractRegions w pc (pipeRemap data pc samples)

def pipeMerge0 (w : Nat) (data : Nat → Nat) (pc : Nat) (samples : List Nat) : MergeState :=
  let ex := pipeExtract w data pc samples
  ⟨ex.regionMap, ex.regions, ex.regions.map (fun r => r.id)⟩

/-- `sortedRegionIds` (lines 162-164): active ids, stably sorted by
current region size ascending. -/
def pipeSorted (w : Nat) (data : Nat → Nat) (pc : Nat) (samples : List Nat) : List Int :=
  let m0 := pipeMerge0 w data pc samples
  sortByKey (sizeKey m0.regionList) m0.activeIds

def pipeMerged (w : Nat) (data : Nat → Nat) (pc : Nat) (samples : List Nat) : MergeState :=
  (pipeSorted w data pc samples).foldl
    (mergeStep w pc (pipePalette data pc samples) (dynamicMinSize pc))
    (pipeMerge0 w data pc samples)

/-- `finalRegions` (line 223). -/
def pipeFinalRegions (w : Nat) (data : Nat → Nat) (pc : Nat) (samples : List Nat) :
    List Region :=
  let ms := pipeMerged w data pc samples
  ms.activeIds.filterMap (fun rid => findRegion ms.regionList rid)

def pipeFinalized (w : Nat) (data : Nat → Nat) (pc : Nat) (samples : List Nat) :
    List Region :=
  (pipeFinalRegions w data pc samples).map
    (finalizeRegion w pc (pipeMerged w data pc samples).regionMap)

/-- The whole processor (lines 22-294).  `samples` is the list of random
pixel indices drawn at lines 36-43; everything else is deterministic.
`maxColors` enters only through the length of `samples` (the source draws
exactly `maxColors` samples and sizes every per-cluster loop by it). -/
def processImageForColoring (width height : Nat) (data : Nat → Nat)
    (maxColors : Nat) (samples : List Nat) : ProcessedImage :=
  let pc := width * height
  let _ := maxColors
  { originalWidth := width
    originalHeight := height
    regions := pipeFinalized width data pc samples
    palette := updateCounts (pipePalette data pc samples) (pipeFinalized width data pc samples)
    pixelData := data
    regionMap := (pipeMerged width data pc samples).regionMap }

/-! ### Specification-side predicates -/

/-- 4-adjacency of flat pixel indices on a grid of width `w`: one step
left/right within a row or up/down within a column. -/
def Adj4 (w : Nat) (a b : Nat) : Prop :=
  (a / w = b / w ∧ (a + 1 = b ∨ b + 1 = a)) ∨
  (a % w = b % w ∧ (a + w = b ∨ b + w = a))

/-- A step of a 4-connected path staying inside the pixel set `s`. -/
def stepIn (w : Nat) (s : List Nat) (a b : Nat) : Prop :=
  Adj4 w a b ∧ a ∈ s ∧ b ∈ s

/-- The claim-level notion of 4-connectedness of a pixel set. -/
def PixelsConnected (w : Nat) (s : List Nat) : Prop :=
  ∀ p ∈ s, ∀ q ∈ s, Relation.ReflTransGen (stepIn w s) p q

/-- Spec-side border condition for pixel `p` of a region with id `rid`,
phrased in image coordinates: some 4-neighbor is outside the `w × h`
image, or is mapped to a different region. -/
def BorderSpec (w h : Nat) (rmap : Nat → Int) (rid : Int) (p : Nat) : Prop :=
  p / w = 0 ∨ p / w = h - 1 ∨ p % w = 0 ∨ p % w = w - 1 ∨
  (0 < p / w ∧ rmap (p - w) ≠ rid) ∨ (p / w < h - 1 ∧ rmap (p + w) ≠ rid) ∨
  (0 < p % w ∧ rmap (p - 1) ≠ rid) ∨ (p % w < w - 1 ∧ rmap (p + 1) ≠ rid)

/-- Spec-side parse of a `#rrggbb` string, two hexadecimal digits per
channel. -/
def parseHexColor (s : String) : Option (Int × Int × Int) :=
  match s.toList with
  | ['#', c1, c2, c3, c4, c5, c6] =>
    if [c1, c2, c3, c4, c5, c6].all (fun ch => hexChars.contains ch) then
      some ((hexChars.indexOf c1 * 16 + hexChars.indexOf c2 : Nat),
            ((hexChars.indexOf c3 * 16 + hexChars.indexOf c4 : Nat),
             (hexChars.indexOf c5 * 16 + hexChars.indexOf c6 : Nat)))
    else none
  | _ => none

/-- Spec-side format check: a lowercase `#rrggbb` string. -/
def IsLowerHex (s : String) : Prop :=
  s.toList.length = 7 ∧ s.toList.headD ' ' = '#' ∧
  ∀ c ∈ s.toList.drop 1, c ∈ hexChars

/-! ### Concrete inputs used by witnesses and counterexamples -/

/-- A 2×2 image: top row red, bottom row green (RGBA bytes). -/
def dataTB : Nat → Nat :=
  fun i => [255, 0, 0, 255, 255, 0, 0, 255,
            0, 255, 0, 255, 0, 255, 0, 255].getD i 0

/-- A uniform gray 2×2 image. -/
def dataU : Nat → Nat :=
  fun i => [7, 7, 7, 255, 7, 7, 7, 255,
            7, 7, 7, 255, 7, 7, 7, 255].getD i 0

/-- A 2×1 image: one black pixel, one red pixel. -/
def dataBR : Nat → Nat :=
  fun i => [0, 0, 0, 255, 255, 0, 0, 255].getD i 0

/-- 129 sample draws for `dataBR`: 128 draws of pixel 0, then pixel 1. -/
def samples129 : List Nat := List.replicate 128 0 ++ [1]

/-! ### Invariants used in the verification -/

/-- Number of unvisited pixels, the key part of the flood-fill variant. -/
def unvis (pc : Nat) (vis : Nat → Bool) : Nat :=
  (List.range pc).countP (fun q => !vis q)

/-- Well-formedness of the (visited, stack) pair inside the flood fill. -/
def StackOK (pc : Nat) (st : (Nat → Bool) × List Nat) : Prop :=
  st.2.Nodup ∧ ∀ q ∈ st.2, st.1 q = true ∧ q < pc

/-- What one full run of the flood-fill loop guarantees, relating the
result `res` to the state `(rmap, vis, stack, pixels)` it started from. -/
structure FloodPost (w pc : Nat) (rid : Int)
    (rmap : Nat → Int) (vis : Nat → Bool) (stack pixels : List Nat)
    (res : (Nat → Int) × (Nat → Bool) × List Nat) : Prop where
  px_prefix : ∃ ext, res.2.2 = pixels ++ ext
  px_all : ∀ q ∈ res.2.2, res.2.1 q = true ∧ q < pc ∧ res.1 q = rid
  px_nodup : res.2.2.Nodup
  px_sub : ∀ q, q ∈ stack ∨ q ∈ pixels → q ∈ res.2.2
  px_src : ∀ q ∈ res.2.2, q ∈ stack ∨ q ∈ pixels ∨ vis q = false
  rmap_frame : ∀ q, q ∉ res.2.2 → res.1 q = rmap q
  vis_mono : ∀ q, vis q = true → res.2.1 q = true
  vis_src : ∀ q, res.2.1 q = true → vis q = true ∨ q ∈ res.2.2
  conn : ∀ root,
    (∀ q, q ∈ stack ∨ q ∈ pixels →
      Relation.ReflTransGen (stepIn w (stack ++ pixels)) root q) →
    ∀ q ∈ res.2.2, Relation.ReflTransGen (stepIn w res.2.2) root q

/-- Invariant of the extraction scan loop. -/
structure ExtractInv (w pc : Nat) (st : ExtractState) : Prop where
  vis_lt : ∀ q, st.visited q = true → q < pc
  mem_vis : ∀ r ∈ st.regions, ∀ q ∈ r.pixels, st.visited q = true
  vis_mem : ∀ q, st.visited q = true → ∃ r ∈ st.regions, q ∈ r.pixels
  rmap_mem : ∀ r ∈ st.regions, ∀ q ∈ r.pixels, st.regionMap q = r.id
  px_nodup : ∀ r ∈ st.regions, r.pixels.Nodup
  px_ne : ∀ r ∈ st.regions, r.pixels ≠ []
  conn : ∀ r ∈ st.regions, PixelsConnected w r.pixels
  ids : st.regions.map (fun r => r.id) = (List.range st.regions.length).map (fun n : Nat => (n : Int))
  nid : st.nextId = (st.regions.length : Int)

/-- Invariant of the merge pass. -/
structure MergeInv (w pc : Nat) (st : MergeState) : Prop where
  act_nodup : st.activeIds.Nodup
  act_nonneg : ∀ rid ∈ st.activeIds, 0 ≤ rid
  act_mem : ∀ rid ∈ st.activeIds, ∃ r ∈ st.regionList, r.id = rid
  ids_nodup : (st.regionList.map (fun r => r.id)).Nodup
  cover : ∀ p, p < pc → ∃ rid ∈ st.activeIds, ∃ r ∈ st.regionList,
    r.id = rid ∧ p ∈ r.pixels
  rmap_eq : ∀ rid ∈ st.activeIds, ∀ r ∈ st.regionList, r.id = rid →
    ∀ p ∈ r.pixels, st.regionMap p = rid
  px_lt : ∀ rid ∈ st.activeIds, ∀ r ∈ st.regionList, r.id = rid →
    ∀ p ∈ r.pixels, p < pc
  px_nodup : ∀ rid ∈ st.activeIds, ∀ r ∈ st.regionList, r.id = rid → r.pixels.Nodup
  px_ne : ∀ rid ∈ st.activeIds, ∀ r ∈ st.regionList, r.id = rid → r.pixels ≠ []
  conn : ∀ rid ∈ st.activeIds, ∀ r ∈ st.regionList, r.id = rid →
    PixelsConnected w r.pixels

/-! ## Lemmas and theorems -/

theorem updF_self {α : Type} (f : Nat → α) (i : Nat) (v : α) : updF f i v i = v := by
  simp [updF]

theorem updF_other {α : Type} (f : Nat → α) (i j : Nat) (v : α) (h : j ≠ i) :
    updF f i v j = f j := by
  simp [updF, h]

theorem int8_eq_self (n : Int) (h1 : 0 ≤ n) (h2 : n ≤ 127) : int8 n = n := by
  unfold int8
  rw [Int.emod_eq_of_lt (by omega) (by omega)]
  omega

theorem getD_mem_or_default {α : Type} (l : List α) (i : Nat) (d : α) :
    l.getD i d ∈ l ∨ l.getD i d = d := by
  induction l generalizing i with
  | nil => right; simp [List.getD]
  | cons a t ih =>
    cases i with
    | zero => left; simp [List.getD]
    | succ j =>
      rcases ih j with h | h
      · left; simpa [List.getD] using List.mem_cons_of_mem a h
      · right; simpa [List.getD] using h

theorem getD_mem_of_lt {α : Type} (l : List α) (i : Nat) (d : α) (h : i < l.length) :
    l.getD i d ∈ l := by
  rw [List.getD_eq_getElem l d h]
  exact List.getElem_mem h

theorem insertByKey_perm {α : Type} (key : α → Int) (x : α) (l : List α) :
    List.Perm (insertByKey key x l) (x :: l) := by
  induction l with
  | nil => rfl
  | cons y ys ih =>
    unfold insertByKey
    split
    · exact ((ih.cons y).trans (List.Perm.swap x y ys))
    · rfl

theorem sortByKey_perm {α : Type} (key : α → Int) (l : List α) :
    List.Perm (sortByKey key l) l := by
  induction l with
  | nil => rfl
  | cons a t ih =>
    have : sortByKey key (a :: t) = insertByKey key a (sortByKey key t) := rfl
    rw [this]
    exact (insertByKey_perm key a (sortByKey key t)).trans (ih.cons a)

theorem unvis_le (pc : Nat) (vis : Nat → Bool) : unvis pc vis ≤ pc := by
  simpa [unvis] using List.countP_le_length (l := List.range pc) (p := fun q => !vis q)

theorem countP_updF_true (vis : Nat → Bool) (q : Nat) :
    ∀ l : List Nat, l.Nodup → q ∈ l → vis q = false →
      l.countP (fun x => !(updF vis q true) x) + 1 = l.countP (fun x => !vis x) := by
  intro l
  induction l with
  | nil => intro _ h; exact absurd h (List.not_mem_nil q)
  | cons a t ih =>
    intro hnd hmem hq
    rcases List.mem_cons.mp hmem with rfl | hmem2
    · have hqt : q ∉ t := (List.nodup_cons.mp hnd).1
      have heq : t.countP (fun x => !(updF vis q true) x) = t.countP (fun x => !vis x) := by
        apply List.countP_congr
        intro x hx
        have : x ≠ q := fun h => hqt (h ▸ hx)
        simp [updF_other vis q x true this]
      rw [List.countP_cons, List.countP_cons, heq]
      simp [updF_self, hq]
    · have hanq : a ≠ q := by
        intro h
        exact (List.nodup_cons.mp hnd).1 (h ▸ hmem2)
      have := ih (List.nodup_cons.mp hnd).2 hmem2 hq
      rw [List.countP_cons, List.countP_cons]
      rw [updF_other vis q a true hanq]
      omega

theorem unvis_updF (pc : Nat) (vis : Nat → Bool) (q : Nat) (hq : q < pc)
    (hv : vis q = false) : unvis pc (updF vis q true) + 1 = unvis pc vis :=
  countP_updF_true vis q (List.range pc) (List.nodup_range pc)
    (List.mem_range.mpr hq) hv

theorem unvis_mono (pc : Nat) (vis vis2 : Nat → Bool)
    (h : ∀ x, vis x = true → vis2 x = true) : unvis pc vis2 ≤ unvis pc vis := by
  apply List.countP_mono_left
  intro a _ ha
  simp only [Bool.not_eq_true'] at ha ⊢
  cases hv : vis a
  · rfl
  · rw [h a hv] at ha; exact ha

/-! ### Flood-fill lemmas -/

theorem pushOne_vis_mono (pc : Nat) (assign : Nat → Int) (color : Int)
    (st : (Nat → Bool) × List Nat) (n : Int) (q : Nat) (h : st.1 q = true) :
    (pushOne pc assign color st n).1 q = true := by
  unfold pushOne
  split
  · show updF st.1 n.toNat true q = true
    by_cases hq : q = n.toNat
    · subst hq; exact updF_self _ _ _
    · rw [updF_other _ _ _ _ hq]; exact h
  · exact h

theorem pushOne_vis_back (pc : Nat) (assign : Nat → Int) (color : Int)
    (st : (Nat → Bool) × List Nat) (n : Int) (q : Nat)
    (h : (pushOne pc assign color st n).1 q = false) : st.1 q = false := by
  cases hv : st.1 q
  · rfl
  · rw [pushOne_vis_mono pc assign color st n q hv] at h; exact h

theorem pushOne_stack_mono (pc : Nat) (assign : Nat → Int) (color : Int)
    (st : (Nat → Bool) × List Nat) (n : Int) (q : Nat) (h : q ∈ st.2) :
    q ∈ (pushOne pc assign color st n).2 := by
  unfold pushOne
  split
  · exact List.mem_cons_of_mem _ h
  · exact h

theorem pushOne_stack_src (pc : Nat) (assign : Nat → Int) (color : Int)
    (st : (Nat → Bool) × List Nat) (n : Int) (q : Nat)
    (h : q ∈ (pushOne pc assign color st n).2) :
    q ∈ st.2 ∨ (0 ≤ n ∧ n.toNat = q ∧ q < pc ∧ st.1 q = false ∧ assign q = color) := by
  unfold pushOne at h
  split at h
  · rename_i hc
    rcases List.mem_cons.mp h with rfl | hm
    · right
      refine ⟨hc.1, rfl, ?_, hc.2.2.1, hc.2.2.2⟩
      omega
    · left; exact hm
  · left; exact h

theorem pushOne_vis_src (pc : Nat) (assign : Nat → Int) (color : Int)
    (st : (Nat → Bool) × List Nat) (n : Int) (q : Nat)
    (h : (pushOne pc assign color st n).1 q = true) :
    st.1 q = true ∨ q ∈ (pushOne pc assign color st n).2 := by
  unfold pushOne at h ⊢
  split at h
  · by_cases hq : q = n.toNat
    · right; rename_i hc; simp only [if_pos hc]; exact hq ▸ List.mem_cons_self _ _
    · left
      have h2 : updF st.1 n.toNat true q = true := h
      rw [updF_other _ _ _ _ hq] at h2
      exact h2
  · left; exact h

theorem pushOne_stackOK (pc : Nat) (assign : Nat → Int) (color : Int)
    (st : (Nat → Bool) × List Nat) (n : Int) (h : StackOK pc st) :
    StackOK pc (pushOne pc assign color st n) := by
  obtain ⟨hnd, hall⟩ := h
  unfold pushOne
  split
  · rename_i hc
    constructor
    · refine List.nodup_cons.mpr ⟨?_, hnd⟩
      intro hmem
      rw [(hall _ hmem).1] at hc
      exact absurd hc.2.2.1 (by simp)
    · intro q hq
      rcases List.mem_cons.mp hq with rfl | hm
      · refine ⟨updF_self _ _ _, ?_⟩; omega
      · have := hall q hm
        by_cases hqn : q = n.toNat
        · subst hqn; exact ⟨updF_self _ _ _, this.2⟩
        · refine ⟨?_, this.2⟩
          show updF st.1 n.toNat true q = true
          rw [updF_other _ _ _ _ hqn]; exact this.1
  · exact ⟨hnd, hall⟩

theorem pushOne_measure (pc : Nat) (assign : Nat → Int) (color : Int)
    (st : (Nat → Bool) × List Nat) (n : Int) :
    unvis pc (pushOne pc assign color st n).1 + (pushOne pc assign color st n).2.length ≤
      unvis pc st.1 + st.2.length := by
  unfold pushOne
  split
  · rename_i hc
    have hlt : n.toNat < pc := by omega
    have := unvis_updF pc st.1 n.toNat hlt hc.2.2.1
    simp only [List.length_cons]
    omega
  · exact Nat.le_refl _

theorem pushNbrs_vis_mono (pc : Nat) (assign : Nat → Int) (color : Int) :
    ∀ (ns : List Int) (st : (Nat → Bool) × List Nat) (q : Nat), st.1 q = true →
      (pushNbrs pc assign color ns st).1 q = true := by
  intro ns
  induction ns with
  | nil => intro st q h; exact h
  | cons n t ih =>
    intro st q h
    exact ih (pushOne pc assign color st n) q (pushOne_vis_mono pc assign color st n q h)

theorem pushNbrs_vis_back (pc : Nat) (assign : Nat → Int) (color : Int)
    (ns : List Int) (st : (Nat → Bool) × List Nat) (q : Nat)
    (h : (pushNbrs pc assign color ns st).1 q = false) : st.1 q = false := by
  cases hv : st.1 q
  · rfl
  · rw [pushNbrs_vis_mono pc assign color ns st q hv] at h; exact h

theorem pushNbrs_stack_mono (pc : Nat) (assign : Nat → Int) (color : Int) :
    ∀ (ns : List Int) (st : (Nat → Bool) × List Nat) (q : Nat), q ∈ st.2 →
      q ∈ (pushNbrs pc assign color ns st).2 := by
  intro ns
  induction ns with
  | nil => intro st q h; exact h
  | cons n t ih =>
    intro st q h
    exact ih (pushOne pc assign color st n) q (pushOne_stack_mono pc assign color st n q h)

theorem pushNbrs_stack_src (pc : Nat) (assign : Nat → Int) (color : Int) :
    ∀ (ns : List Int) (st : (Nat → Bool) × List Nat) (q : Nat),
      q ∈ (pushNbrs pc assign color ns st).2 →
      q ∈ st.2 ∨ ∃ n ∈ ns, 0 ≤ n ∧ n.toNat = q ∧ q < pc ∧ st.1 q = false ∧
        assign q = color := by
  intro ns
  induction ns with
  | nil => intro st q h; left; exact h
  | cons n t ih =>
    intro st q h
    rcases ih (pushOne pc assign color st n) q h with h2 | ⟨n2, hn2, h0, hq, hlt, hf, hc⟩
    · rcases pushOne_stack_src pc assign color st n q h2 with h3 | ⟨h0, hq, hlt, hf, hc⟩
      · left; exact h3
      · right; exact ⟨n, List.mem_cons_self _ _, h0, hq, hlt, hf, hc⟩
    · right
      exact ⟨n2, List.mem_cons_of_mem _ hn2, h0, hq, hlt,
        pushOne_vis_back pc assign color st n q hf, hc⟩

theorem pushNbrs_vis_src (pc : Nat) (assign : Nat → Int) (color : Int) :
    ∀ (ns : List Int) (st : (Nat → Bool) × List Nat) (q : Nat),
      (pushNbrs pc assign color ns st).1 q = true →
      st.1 q = true ∨ q ∈ (pushNbrs pc assign color ns st).2 := by
  intro ns
  induction ns with
  | nil => intro st q h; left; exact h
  | cons n t ih =>
    intro st q h
    rcases ih (pushOne pc assign color st n) q h with h2 | h2
    · rcases pushOne_vis_src pc assign color st n q h2 with h3 | h3
      · left; exact h3
      · right; exact pushNbrs_stack_mono pc assign color t _ q h3
    · right; exact h2

theorem pushNbrs_stackOK (pc : Nat) (assign : Nat → Int) (color : Int) :
    ∀ (ns : List Int) (st : (Nat → Bool) × List Nat), StackOK pc st →
      StackOK pc (pushNbrs pc assign color ns st) := by
  intro ns
  induction ns with
  | nil => intro st h; exact h
  | cons n t ih =>
    intro st h
    exact ih (pushOne pc assign color st n) (pushOne_stackOK pc assign color st n h)

theorem pushNbrs_measure (pc : Nat) (assign : Nat → Int) (color : Int) :
    ∀ (ns : List Int) (st : (Nat → Bool) × List Nat),
      unvis pc (pushNbrs pc assign color ns st).1 +
        (pushNbrs pc assign color ns st).2.length ≤
        unvis pc st.1 + st.2.length := by
  intro ns
  induction ns with
  | nil => intro st; exact Nat.le_refl _
  | cons n t ih =>
    intro st
    exact Nat.le_trans (ih (pushOne pc assign color st n))
      (pushOne_measure pc assign color st n)

/-! ### Grid arithmetic for 4-adjacency -/

theorem pred_div_eq (p w : Nat) (h : 0 < p % w) : (p - 1) / w = p / w := by
  rcases Nat.eq_zero_or_pos w with hw | hw
  · subst hw; simp [Nat.div_zero]
  · have hmod := Nat.mod_lt p hw
    have hdm := Nat.div_add_mod p w
    have h1 : p - 1 = (p % w - 1) + w * (p / w) := by omega
    rw [h1, Nat.add_mul_div_left _ _ hw, Nat.div_eq_of_lt (by omega)]
    omega

theorem succ_div_eq (p w : Nat) (h : p % w < w - 1) : (p + 1) / w = p / w := by
  have hw : 0 < w := by omega
  have hdm := Nat.div_add_mod p w
  have h1 : p + 1 = (p % w + 1) + w * (p / w) := by omega
  rw [h1, Nat.add_mul_div_left _ _ hw, Nat.div_eq_of_lt (by omega)]
  omega

theorem sub_w_mod_eq (p w : Nat) (h : w ≤ p) : (p - w) % w = p % w := by
  conv_rhs => rw [← Nat.sub_add_cancel h]
  rw [Nat.add_mod_right]

theorem adj4_symm (w : Nat) : Symmetric (Adj4 w) := by
  intro a b h
  rcases h with ⟨h1, h2⟩ | ⟨h1, h2⟩
  · exact Or.inl ⟨h1.symm, h2.symm⟩
  · exact Or.inr ⟨h1.symm, h2.symm⟩

theorem nbrs_adj (w pc p : Nat) (n : Int) (hn : n ∈ nbrs w p)
    (h0 : 0 ≤ n) (hlt : n < (pc : Int)) : Adj4 w p n.toNat := by
  simp only [nbrs, List.mem_cons, List.not_mem_nil, or_false] at hn
  rcases hn with rfl | rfl | rfl | rfl
  · -- up neighbor p - w
    have hwp : w ≤ p := by omega
    have ht : (((p : Int) - (w : Int)).toNat) = p - w := by omega
    rw [ht]
    exact Or.inr ⟨(sub_w_mod_eq p w hwp).symm, Or.inr (by omega)⟩
  · -- down neighbor p + w
    have ht : (((p : Int) + (w : Int)).toNat) = p + w := by omega
    rw [ht]
    exact Or.inr ⟨(Nat.add_mod_right p w).symm, Or.inl rfl⟩
  · -- left neighbor
    by_cases hg : 0 < p % w
    · simp only [if_pos hg] at h0 ⊢
      have hp : 0 < p := Nat.lt_of_lt_of_le hg (Nat.mod_le p w)
      have ht : (((p : Int) - 1).toNat) = p - 1 := by omega
      rw [ht]
      exact Or.inl ⟨(pred_div_eq p w hg).symm, Or.inr (by omega)⟩
    · simp only [if_neg hg] at h0; omega
  · -- right neighbor
    by_cases hg : p % w < w - 1
    · simp only [if_pos hg] at h0 ⊢
      have ht : (((p : Int) + 1).toNat) = p + 1 := by omega
      rw [ht]
      exact Or.inl ⟨(succ_div_eq p w hg).symm, Or.inl rfl⟩
    · simp only [if_neg hg] at h0; omega

/-! ### The flood-fill loop satisfies its postcondition -/

theorem floodLoop_post (w pc : Nat) (assign : Nat → Int) (color rid : Int) :
    ∀ (fuel : Nat) (rmap : Nat → Int) (vis : Nat → Bool) (stack pixels : List Nat),
      unvis pc vis + stack.length ≤ fuel →
      StackOK pc (vis, stack) →
      pixels.Nodup →
      (∀ q ∈ pixels, vis q = true ∧ q < pc ∧ rmap q = rid) →
      stack.Disjoint pixels →
      FloodPost w pc rid rmap vis stack pixels
        (floodLoop w pc assign color rid fuel rmap vis stack pixels) := by
  intro fuel
  induction fuel with
  | zero =>
    intro rmap vis stack pixels hf hsk hpnd hpx hdisj
    cases stack with
    | nil =>
      refine ⟨⟨[], by simp [floodLoop]⟩, ?_, ?_, ?_, ?_, ?_, ?_, ?_, ?_⟩
      · intro q hq; exact hpx q hq
      · exact hpnd
      · intro q hq
        rcases hq with hq | hq
        · exact absurd hq (List.not_mem_nil q)
        · exact hq
      · intro q hq; exact Or.inr (Or.inl hq)
      · intro q _; rfl
      · intro q h; exact h
      · intro q h; exact Or.inl h
      · intro root hc q hq
        simpa using hc q (Or.inr hq)
    | cons p rest =>
      exfalso
      simp only [List.length_cons] at hf
      omega
  | succ fuel ih =>
    intro rmap vis stack pixels hf hsk hpnd hpx hdisj
    cases stack with
    | nil =>
      refine ⟨⟨[], by simp [floodLoop]⟩, ?_, ?_, ?_, ?_, ?_, ?_, ?_, ?_⟩
      · intro q hq; exact hpx q hq
      · exact hpnd
      · intro q hq
        rcases hq with hq | hq
        · exact absurd hq (List.not_mem_nil q)
        · exact hq
      · intro q hq; exact Or.inr (Or.inl hq)
      · intro q _; rfl
      · intro q h; exact h
      · intro q h; exact Or.inl h
      · intro root hc q hq
        simpa using hc q (Or.inr hq)
    | cons p rest =>
      obtain ⟨hnd, hstack⟩ := hsk
      have hp_vis : vis p = true := (hstack p (List.mem_cons_self p rest)).1
      have hp_lt : p < pc := (hstack p (List.mem_cons_self p rest)).2
      have hp_npx : p ∉ pixels := fun hm => hdisj (List.mem_cons_self p rest) hm
      set vs := pushNbrs pc assign color (nbrs w p) (vis, rest) with hvs
      -- establish the preconditions of the recursive call
      have hok2 : StackOK pc (vs.1, vs.2) := by
        have : StackOK pc vs :=
          pushNbrs_stackOK pc assign color (nbrs w p) (vis, rest)
            ⟨(List.nodup_cons.mp hnd).2, fun q hq => hstack q (List.mem_cons_of_mem p hq)⟩
        exact this
      have hf2 : unvis pc vs.1 + vs.2.length ≤ fuel := by
        have hm : unvis pc vs.1 + vs.2.length ≤ unvis pc vis + rest.length :=
          pushNbrs_measure pc assign color (nbrs w p) (vis, rest)
        simp only [List.length_cons] at hf
        omega
      have hpnd2 : (pixels ++ [p]).Nodup := by
        refine hpnd.append (List.nodup_singleton p) ?_
        intro a ha hb
        rw [List.mem_singleton] at hb
        subst hb
        exact hp_npx ha
      have hpx2 : ∀ q ∈ pixels ++ [p],
          vs.1 q = true ∧ q < pc ∧ (updF rmap p rid) q = rid := by
        intro q hq
        rcases List.mem_append.mp hq with hq | hq
        · obtain ⟨h1, h2, h3⟩ := hpx q hq
          have hqp : q ≠ p := fun h => hp_npx (h ▸ hq)
          exact ⟨pushNbrs_vis_mono pc assign color _ _ q h1, h2,
            by rw [updF_other _ _ _ _ hqp]; exact h3⟩
        · rw [List.mem_singleton] at hq
          subst hq
          exact ⟨pushNbrs_vis_mono pc assign color _ _ q hp_vis, hp_lt, updF_self _ _ _⟩
      have hdisj2 : vs.2.Disjoint (pixels ++ [p]) := by
        intro q hq hq2
        rcases pushNbrs_stack_src pc assign color (nbrs w p) (vis, rest) q hq with
          hr | ⟨n, _, _, _, _, hf0, _⟩
        · rcases List.mem_append.mp hq2 with hq3 | hq3
          · exact hdisj (List.mem_cons_of_mem p hr) hq3
          · rw [List.mem_singleton] at hq3
            subst hq3
            exact (List.nodup_cons.mp hnd).1 hr
        · have hv2 : vis q = false := hf0
          rcases List.mem_append.mp hq2 with hq3 | hq3
          · have hv3 := (hpx q hq3).1
            rw [hv2] at hv3; exact Bool.noConfusion hv3
          · rw [List.mem_singleton] at hq3
            subst hq3
            rw [hv2] at hp_vis; exact Bool.noConfusion hp_vis
      have F := ih (updF rmap p rid) vs.1 vs.2 (pixels ++ [p]) hf2 hok2 hpnd2 hpx2 hdisj2
      have hstep : floodLoop w pc assign color rid (fuel + 1) rmap vis (p :: rest) pixels =
          floodLoop w pc assign color rid fuel (updF rmap p rid) vs.1 vs.2 (pixels ++ [p]) := by
        rfl
      rw [hstep]
      set res := floodLoop w pc assign color rid fuel (updF rmap p rid) vs.1 vs.2 (pixels ++ [p])
        with hres
      have hp_res : p ∈ res.2.2 :=
        F.px_sub p (Or.inr (List.mem_append.mpr (Or.inr (List.mem_singleton.mpr rfl))))
      refine ⟨?_, F.px_all, F.px_nodup, ?_, ?_, ?_, ?_, ?_, ?_⟩
      · obtain ⟨ext, hext⟩ := F.px_prefix
        exact ⟨p :: ext, by rw [hext]; simp⟩
      · intro q hq
        rcases hq with hq | hq
        · rcases List.mem_cons.mp hq with rfl | hq2
          · exact hp_res
          · exact F.px_sub q (Or.inl (pushNbrs_stack_mono pc assign color _ _ q hq2))
        · exact F.px_sub q (Or.inr (List.mem_append.mpr (Or.inl hq)))
      · intro q hq
        rcases F.px_src q hq with hq2 | hq2 | hq2
        · rcases pushNbrs_stack_src pc assign color (nbrs w p) (vis, rest) q hq2 with
            hr | ⟨n, _, _, _, _, hf0, _⟩
          · exact Or.inl (List.mem_cons_of_mem p hr)
          · exact Or.inr (Or.inr hf0)

        · rcases List.mem_append.mp hq2 with hq3 | hq3
          · exact Or.inr (Or.inl hq3)
          · rw [List.mem_singleton] at hq3
            subst hq3
            exact Or.inl (List.mem_cons_self _ _)
        · exact Or.inr (Or.inr (pushNbrs_vis_back pc assign color _ _ q hq2))
      · intro q hq
        have hqp : q ≠ p := fun h => hq (h ▸ hp_res)
        rw [F.rmap_frame q hq, updF_other _ _ _ _ hqp]
      · intro q hq
        exact F.vis_mono q (pushNbrs_vis_mono pc assign color _ _ q hq)
      · intro q hq
        rcases F.vis_src q hq with hq2 | hq2
        · rcases pushNbrs_vis_src pc assign color (nbrs w p) (vis, rest) q hq2 with hq3 | hq3
          · exact Or.inl hq3
          · exact Or.inr (F.px_sub q (Or.inl hq3))
        · exact Or.inr hq2
      · intro root hc q hq
        -- lift the reachability hypothesis to the recursive state
        have hmemS2 : ∀ x, x ∈ (p :: rest) ++ pixels → x ∈ vs.2 ++ (pixels ++ [p]) := by
          intro x hx
          rcases List.mem_append.mp hx with hx | hx
          · rcases List.mem_cons.mp hx with rfl | hx2
            · exact List.mem_append.mpr (Or.inr (List.mem_append.mpr
                (Or.inr (List.mem_singleton.mpr rfl))))
            · exact List.mem_append.mpr
                (Or.inl (pushNbrs_stack_mono pc assign color _ _ x hx2))
          · exact List.mem_append.mpr (Or.inr (List.mem_append.mpr (Or.inl hx)))
        have hlift : ∀ x, x ∈ (p :: rest) ∨ x ∈ pixels →
            Relation.ReflTransGen (stepIn w (vs.2 ++ (pixels ++ [p]))) root x := by
          intro x hx
          refine Relation.ReflTransGen.mono ?_ (hc x hx)
          intro a b hab
          exact ⟨hab.1, hmemS2 a hab.2.1, hmemS2 b hab.2.2⟩
        have hc2 : ∀ x, x ∈ vs.2 ∨ x ∈ pixels ++ [p] →
            Relation.ReflTransGen (stepIn w (vs.2 ++ (pixels ++ [p]))) root x := by
          intro x hx
          rcases hx with hx | hx
          · rcases pushNbrs_stack_src pc assign color (nbrs w p) (vis, rest) x hx with
              hr | ⟨n, hnmem, h0, hqx, hxlt, _, _⟩
            · exact hlift x (Or.inl (List.mem_cons_of_mem p hr))
            · have hadj : Adj4 w p x := by
                have := nbrs_adj w pc p n hnmem h0 (by omega)
                rwa [hqx] at this
              refine Relation.ReflTransGen.tail (hlift p (Or.inl (List.mem_cons_self p rest))) ?_
              refine ⟨hadj, hmemS2 p ?_, List.mem_append.mpr (Or.inl hx)⟩
              exact List.mem_append.mpr (Or.inl (List.mem_cons_self p rest))
          · rcases List.mem_append.mp hx with hx2 | hx2
            · exact hlift x (Or.inr hx2)
            · rw [List.mem_singleton] at hx2
              subst hx2
              exact hlift x (Or.inl (List.mem_cons_self _ _))
        exact F.conn root hc2 q hq

/-! ### Extraction stage invariant -/

theorem pixelsConnected_of_root (w : Nat) (s : List Nat) (root : Nat) (_hroot : root ∈ s)
    (h : ∀ q ∈ s, Relation.ReflTransGen (stepIn w s) root q) : PixelsConnected w s := by
  intro p hp q hq
  have hsym : Symmetric (stepIn w s) := fun a b hab => ⟨adj4_symm w hab.1, hab.2.2, hab.2.1⟩
  exact Relation.ReflTransGen.trans ((Relation.ReflTransGen.symmetric hsym) (h p hp)) (h q hq)

theorem ids_snoc (regions : List Region) (R : Region)
    (hids : regions.map (fun r => r.id) = (List.range regions.length).map (fun n : Nat => (n : Int)))
    (hR : R.id = (regions.length : Int)) :
    (regions ++ [R]).map (fun r => r.id) =
      (List.range (regions ++ [R]).length).map (fun n : Nat => (n : Int)) := by
  rw [List.map_append, hids, List.length_append]
  simp only [List.length_cons, List.length_nil, List.map_cons, List.map_nil]
  rw [List.range_succ, List.map_append]
  simp [hR]

theorem extractStep_inv (w pc : Nat) (assign : Nat → Int) (st : ExtractState) (i : Nat)
    (hi : i < pc) (hinv : ExtractInv w pc st) :
    ExtractInv w pc (extractStep w pc assign st i) ∧
    (∀ q, st.visited q = true → (extractStep w pc assign st i).visited q = true) ∧
    (extractStep w pc assign st i).visited i = true := by
  by_cases hv : st.visited i = true
  · have hstep : extractStep w pc assign st i = st := by
      simp only [extractStep, if_pos hv]
    rw [hstep]
    exact ⟨hinv, fun q h => h, hv⟩
  · have hvf : st.visited i = false := by
      cases h : st.visited i
      · rfl
      · exact absurd h hv
    have hstep : extractStep w pc assign st i =
        { regionMap := (floodLoop w pc assign (assign i) st.nextId (pc + 1)
            st.regionMap (updF st.visited i true) [i] []).1
          visited := (floodLoop w pc assign (assign i) st.nextId (pc + 1)
            st.regionMap (updF st.visited i true) [i] []).2.1
          regions := st.regions ++
            [{ id := st.nextId, colorId := assign i,
               pixels := (floodLoop w pc assign (assign i) st.nextId (pc + 1)
                 st.regionMap (updF st.visited i true) [i] []).2.2,
               centroid := (0, 0), borderPixels := [] }]
          nextId := st.nextId + 1 } := by
      simp only [extractStep, if_neg hv]
    set vis0 := updF st.visited i true with hvis0
    have hvis0i : vis0 i = true := updF_self _ _ _
    have hvis0mono : ∀ q, st.visited q = true → vis0 q = true := by
      intro q hq
      by_cases hqi : q = i
      · subst hqi; exact hvis0i
      · rw [hvis0, updF_other _ _ _ _ hqi]; exact hq
    have hvis0back : ∀ q, vis0 q = false → st.visited q = false := by
      intro q hq
      cases hsq : st.visited q
      · rfl
      · rw [hvis0mono q hsq] at hq; exact Bool.noConfusion hq
    have F := floodLoop_post w pc assign (assign i) st.nextId (pc + 1)
      st.regionMap vis0 [i] []
      (by
        have := unvis_le pc vis0
        simp only [List.length_cons, List.length_nil]
        omega)
      (by
        refine ⟨List.nodup_singleton i, ?_⟩
        intro q hq
        rw [List.mem_singleton] at hq
        subst hq
        exact ⟨hvis0i, hi⟩)
      List.nodup_nil
      (by intro q hq; exact absurd hq (List.not_mem_nil q))
      (by intro q hq hq2; exact absurd hq2 (List.not_mem_nil q))
    set res := floodLoop w pc assign (assign i) st.nextId (pc + 1)
      st.regionMap vis0 [i] [] with hres
    have hi_res : i ∈ res.2.2 := F.px_sub i (Or.inl (List.mem_singleton.mpr rfl))
    -- pixels of the new region were unvisited in st (or are the seed)
    have hnew_unvis : ∀ q ∈ res.2.2, st.visited q = false := by
      intro q hq
      rcases F.px_src q hq with hq2 | hq2 | hq2
      · rw [List.mem_singleton] at hq2; subst hq2; exact hvf
      · exact absurd hq2 (List.not_mem_nil q)
      · exact hvis0back q hq2
    have hold_not_new : ∀ r ∈ st.regions, ∀ q ∈ r.pixels, q ∉ res.2.2 := by
      intro r hr q hq hq2
      have h1 := hnew_unvis q hq2
      rw [hinv.mem_vis r hr q hq] at h1
      exact Bool.noConfusion h1
    rw [hstep]
    refine ⟨⟨?_, ?_, ?_, ?_, ?_, ?_, ?_, ?_, ?_⟩, ?_, ?_⟩
    · -- vis_lt
      intro q hq
      rcases F.vis_src q hq with hq2 | hq2
      · by_cases hqi : q = i
        · subst hqi; exact hi
        · rw [hvis0, updF_other _ _ _ _ hqi] at hq2
          exact hinv.vis_lt q hq2
      · exact (F.px_all q hq2).2.1
    · -- mem_vis
      intro r hr q hq
      rcases List.mem_append.mp hr with hr | hr
      · exact F.vis_mono q (hvis0mono q (hinv.mem_vis r hr q hq))
      · rw [List.mem_singleton] at hr
        subst hr
        exact (F.px_all q hq).1
    · -- vis_mem
      intro q hq
      rcases F.vis_src q hq with hq2 | hq2
      · by_cases hqi : q = i
        · subst hqi
          refine ⟨_, List.mem_append.mpr (Or.inr (List.mem_singleton.mpr rfl)), hi_res⟩
        · rw [hvis0, updF_other _ _ _ _ hqi] at hq2
          obtain ⟨r, hr, hqr⟩ := hinv.vis_mem q hq2
          exact ⟨r, List.mem_append.mpr (Or.inl hr), hqr⟩
      · exact ⟨_, List.mem_append.mpr (Or.inr (List.mem_singleton.mpr rfl)), hq2⟩
    · -- rmap_mem
      intro r hr q hq
      rcases List.mem_append.mp hr with hr | hr
      · show res.1 q = r.id
        rw [F.rmap_frame q (hold_not_new r hr q hq)]
        exact hinv.rmap_mem r hr q hq
      · rw [List.mem_singleton] at hr
        subst hr
        exact (F.px_all q hq).2.2
    · -- px_nodup
      intro r hr
      rcases List.mem_append.mp hr with hr | hr
      · exact hinv.px_nodup r hr
      · rw [List.mem_singleton] at hr; subst hr; exact F.px_nodup
    · -- px_ne
      intro r hr
      rcases List.mem_append.mp hr with hr | hr
      · exact hinv.px_ne r hr
      · rw [List.mem_singleton] at hr; subst hr
        exact List.ne_nil_of_mem hi_res
    · -- conn
      intro r hr
      rcases List.mem_append.mp hr with hr | hr
      · exact hinv.conn r hr
      · rw [List.mem_singleton] at hr; subst hr
        refine pixelsConnected_of_root w res.2.2 i hi_res ?_
        refine F.conn i ?_
        intro q hq
        rcases hq with hq | hq
        · rw [List.mem_singleton] at hq; subst hq
          exact Relation.ReflTransGen.refl
        · exact absurd hq (List.not_mem_nil q)
    · -- ids
      exact ids_snoc st.regions _ hinv.ids hinv.nid
    · -- nid
      simp only [List.length_append, List.length_cons, List.length_nil]
      rw [hinv.nid]
      push_cast
      ring
    · -- monotone visited
      intro q hq
      exact F.vis_mono q (hvis0mono q hq)
    · -- i is visited
      exact F.vis_mono i hvis0i

theorem extract_fold_inv (w pc : Nat) (assign : Nat → Int) :
    ∀ (l : List Nat) (st : ExtractState), (∀ j ∈ l, j < pc) → ExtractInv w pc st →
      ExtractInv w pc (l.foldl (extractStep w pc assign) st) ∧
      (∀ q, st.visited q = true →
        (l.foldl (extractStep w pc assign) st).visited q = true) ∧
      (∀ j ∈ l, (l.foldl (extractStep w pc assign) st).visited j = true) := by
  intro l
  induction l with
  | nil =>
    intro st _ hinv
    exact ⟨hinv, fun q h => h, fun j hj => absurd hj (List.not_mem_nil j)⟩
  | cons i t ih =>
    intro st hl hinv
    have hi : i < pc := hl i (List.mem_cons_self i t)
    obtain ⟨hinv2, hmono2, hvis2⟩ := extractStep_inv w pc assign st i hi hinv
    obtain ⟨hinv3, hmono3, hvis3⟩ :=
      ih (extractStep w pc assign st i) (fun j hj => hl j (List.mem_cons_of_mem i hj)) hinv2
    refine ⟨hinv3, ?_, ?_⟩
    · intro q hq
      exact hmono3 q (hmono2 q hq)
    · intro j hj
      rcases List.mem_cons.mp hj with rfl | hj2
      · exact hmono3 j hvis2
      · exact hvis3 j hj2

theorem extractRegions_inv (w pc : Nat) (assign : Nat → Int) :
    ExtractInv w pc (extractRegions w pc assign) ∧
    (∀ j, j < pc → (extractRegions w pc assign).visited j = true) := by
  have hinit : ExtractInv w pc ⟨fun _ => -1, fun _ => false, [], 0⟩ := by
    refine ⟨?_, ?_, ?_, ?_, ?_, ?_, ?_, ?_, ?_⟩
    · intro q hq; exact Bool.noConfusion hq
    · intro r hr; exact absurd hr (List.not_mem_nil r)
    · intro q hq; exact Bool.noConfusion hq
    · intro r hr; exact absurd hr (List.not_mem_nil r)
    · intro r hr; exact absurd hr (List.not_mem_nil r)
    · intro r hr; exact absurd hr (List.not_mem_nil r)
    · intro r hr; exact absurd hr (List.not_mem_nil r)
    · simp
    · simp
  obtain ⟨h1, _, h3⟩ := extract_fold_inv w pc assign (List.range pc)
    ⟨fun _ => -1, fun _ => false, [], 0⟩ (fun j hj => List.mem_range.mp hj) hinit
  exact ⟨h1, fun j hj => h3 j (List.mem_range.mpr hj)⟩

/-- The initial merge state built from the extraction output satisfies
the merge invariant. -/
theorem mergeInv_init (w pc : Nat) (assign : Nat → Int) :
    MergeInv w pc ⟨(extractRegions w pc assign).regionMap,
      (extractRegions w pc assign).regions,
      (extractRegions w pc assign).regions.map (fun r => r.id)⟩ := by
  obtain ⟨hinv, hfull⟩ := extractRegions_inv w pc assign
  set ex := extractRegions w pc assign with hex
  have hids_nodup : (ex.regions.map (fun r => r.id)).Nodup := by
    rw [hinv.ids]
    have hinj : Function.Injective (fun n : Nat => (n : Int)) := by
      intro a b hab
      exact Nat.cast_inj.mp hab
    exact (List.nodup_range _).map hinj
  have hpx_lt : ∀ r ∈ ex.regions, ∀ q ∈ r.pixels, q < pc := by
    intro r hr q hq
    exact hinv.vis_lt q (hinv.mem_vis r hr q hq)
  refine ⟨hids_nodup, ?_, ?_, hids_nodup, ?_, ?_, ?_, ?_, ?_, ?_⟩
  · intro rid hrid
    rw [hinv.ids] at hrid
    simp only [List.mem_map, List.mem_range] at hrid
    obtain ⟨j, _, hj⟩ := hrid
    omega
  · intro rid hrid
    simp only [List.mem_map] at hrid
    obtain ⟨r, hr, hrid2⟩ := hrid
    exact ⟨r, hr, hrid2⟩
  · intro p hp
    obtain ⟨r, hr, hpr⟩ := hinv.vis_mem p (hfull p hp)
    exact ⟨r.id, List.mem_map.mpr ⟨r, hr, rfl⟩, r, hr, rfl, hpr⟩
  · intro rid _ r hr hrid p hpr
    rw [← hrid]
    exact hinv.rmap_mem r hr p hpr
  · intro rid _ r hr _ p hpr
    exact hpx_lt r hr p hpr
  · intro rid _ r hr _
    exact hinv.px_nodup r hr
  · intro rid _ r hr _
    exact hinv.px_ne r hr
  · intro rid _ r hr _
    exact hinv.conn r hr

/-! ### Merge stage helper lemmas -/

theorem findRegion_some (rl : List Region) (rid : Int) (r : Region)
    (h : findRegion rl rid = some r) : r ∈ rl ∧ r.id = rid := by
  unfold findRegion at h
  have h2 := List.find?_some (p := fun r2 : Region => decide (r2.id = rid)) h
  exact ⟨List.mem_of_find?_eq_some h, of_decide_eq_true h2⟩

theorem findRegion_exists (rl : List Region) (rid : Int) (h : ∃ r ∈ rl, r.id = rid) :
    ∃ r, findRegion rl rid = some r ∧ r ∈ rl ∧ r.id = rid := by
  obtain ⟨r0, hr0, hid0⟩ := h
  have h2 : (rl.find? (fun r => decide (r.id = rid))).isSome :=
    List.find?_isSome.2 ⟨r0, hr0, decide_eq_true hid0⟩
  obtain ⟨r, hr⟩ := Option.isSome_iff_exists.mp h2
  exact ⟨r, hr, findRegion_some rl rid r hr⟩

theorem region_unique (rl : List Region) (hnd : (rl.map (fun r => r.id)).Nodup)
    (r1 r2 : Region) (h1 : r1 ∈ rl) (h2 : r2 ∈ rl) (hid : r1.id = r2.id) : r1 = r2 :=
  List.inj_on_of_nodup_map hnd h1 h2 hid

theorem foldl_mem_or {α β : Type} (P : α → Prop) :
    ∀ (l : List β) (f : List α → β → List α),
      (∀ acc, ∀ b ∈ l, ∀ x, x ∈ f acc b → x ∈ acc ∨ P x) →
      ∀ acc x, x ∈ l.foldl f acc → x ∈ acc ∨ P x := by
  intro l
  induction l with
  | nil => intro f _ acc x hx; left; exact hx
  | cons b t ih =>
    intro f hf acc x hx
    rcases ih f (fun acc2 b2 hb2 => hf acc2 b2 (List.mem_cons_of_mem b hb2)) (f acc b) x hx
      with h | h
    · exact hf acc b (List.mem_cons_self b t) x h
    · right; exact h

theorem collectNeighbors_mem (w pc : Nat) (st : MergeState) (region : Region) :
    ∀ nid ∈ collectNeighbors w pc st region,
      nid ≠ region.id ∧ nid ∈ st.activeIds ∧
      ∃ p ∈ region.pixels, ∃ n ∈ nbrs w p, 0 ≤ n ∧ n < (pc : Int) ∧
        st.regionMap n.toNat = nid := by
  intro nid hnid
  unfold collectNeighbors at hnid
  have hres := foldl_mem_or
    (P := fun x => x ≠ region.id ∧ x ∈ st.activeIds ∧
      ∃ p ∈ region.pixels, ∃ n ∈ nbrs w p, 0 ≤ n ∧ n < (pc : Int) ∧
        st.regionMap n.toNat = x)
    region.pixels _ ?_ [] nid hnid
  · rcases hres with h | h
    · exact absurd h (List.not_mem_nil nid)
    · exact h
  · intro acc p hp x hx
    have hinner := foldl_mem_or
      (P := fun y => y ≠ region.id ∧ y ∈ st.activeIds ∧
        ∃ p2 ∈ region.pixels, ∃ n ∈ nbrs w p2, 0 ≤ n ∧ n < (pc : Int) ∧
          st.regionMap n.toNat = y)
      (nbrs w p) _ ?_ acc x hx
    · exact hinner
    · intro acc2 n hn y hy
      simp only at hy
      by_cases h1 : 0 ≤ n ∧ n < (pc : Int)
      · rw [if_pos h1] at hy
        by_cases h2 : st.regionMap n.toNat ≠ region.id ∧
            st.activeIds.contains (st.regionMap n.toNat) ∧ st.regionMap n.toNat ∉ acc2
        · rw [if_pos h2] at hy
          rcases List.mem_append.mp hy with h3 | h3
          · left; exact h3
          · rw [List.mem_singleton] at h3
            subst h3
            right
            exact ⟨h2.1, List.elem_iff.mp h2.2.1, p, hp, n, hn, h1.1, h1.2, rfl⟩
        · rw [if_neg h2] at hy; left; exact hy
      · rw [if_neg h1] at hy; left; exact hy

theorem foldl_fst_mem {α γ : Type} (g : (α × Option γ) → α → (α × Option γ))
    (hg : ∀ acc n, (g acc n).1 = acc.1 ∨ (g acc n).1 = n) :
    ∀ (l : List α) (acc : α × Option γ),
      (l.foldl g acc).1 = acc.1 ∨ (l.foldl g acc).1 ∈ l := by
  intro l
  induction l with
  | nil => intro acc; left; rfl
  | cons n t ih =>
    intro acc
    rw [List.foldl_cons]
    rcases ih (g acc n) with h | h
    · rcases hg acc n with h2 | h2
      · left; rw [h, h2]
      · right; rw [h, h2]; exact List.mem_cons_self n t
    · right; exact List.mem_cons_of_mem n h

theorem bestNeighborOf_spec (pal : List PaletteColor) (rl : List Region) (region : Region)
    (l : List Int) :
    bestNeighborOf pal rl region l = -1 ∨ bestNeighborOf pal rl region l ∈ l := by
  unfold bestNeighborOf
  refine foldl_fst_mem _ ?_ l ((-1 : Int), (none : Option Int))
  intro acc n
  cases hacc : acc.2 with
  | none =>
    right
    simp only [hacc]
  | some m =>
    simp only [hacc]
    split
    · right; rfl
    · left; rfl

theorem foldl_updF_mem (v : Int) :
    ∀ (pl : List Nat) (m : Nat → Int) (q : Nat),
      (pl.foldl (fun m2 p => updF m2 p v) m) q = if q ∈ pl then v else m q := by
  intro pl
  induction pl with
  | nil => intro m q; simp
  | cons p t ih =>
    intro m q
    rw [List.foldl_cons, ih]
    by_cases hq : q ∈ t
    · rw [if_pos hq, if_pos (List.mem_cons_of_mem p hq)]
    · by_cases hqp : q = p
      · subst hqp
        rw [if_neg hq, if_pos (List.mem_cons_self q t), updF_self]
      · rw [if_neg hq, updF_other _ _ _ _ hqp,
          if_neg (fun h => by rcases List.mem_cons.mp h with h | h; exact hqp h; exact hq h)]

theorem pixelsConnected_append (w : Nat) (A B : List Nat) (hA : PixelsConnected w A)
    (hB : PixelsConnected w B) (a0 b0 : Nat) (ha0 : a0 ∈ A) (hb0 : b0 ∈ B)
    (hadj : Adj4 w a0 b0) : PixelsConnected w (A ++ B) := by
  have hmonoA : ∀ x y, Relation.ReflTransGen (stepIn w A) x y →
      Relation.ReflTransGen (stepIn w (A ++ B)) x y := by
    intro x y h
    refine Relation.ReflTransGen.mono ?_ h
    intro a b hab
    exact ⟨hab.1, List.mem_append.mpr (Or.inl hab.2.1), List.mem_append.mpr (Or.inl hab.2.2)⟩
  have hmonoB : ∀ x y, Relation.ReflTransGen (stepIn w B) x y →
      Relation.ReflTransGen (stepIn w (A ++ B)) x y := by
    intro x y h
    refine Relation.ReflTransGen.mono ?_ h
    intro a b hab
    exact ⟨hab.1, List.mem_append.mpr (Or.inr hab.2.1), List.mem_append.mpr (Or.inr hab.2.2)⟩
  have hcross : Relation.ReflTransGen (stepIn w (A ++ B)) a0 b0 :=
    Relation.ReflTransGen.single
      ⟨hadj, List.mem_append.mpr (Or.inl ha0), List.mem_append.mpr (Or.inr hb0)⟩
  have hcross2 : Relation.ReflTransGen (stepIn w (A ++ B)) b0 a0 :=
    Relation.ReflTransGen.single
      ⟨adj4_symm w hadj, List.mem_append.mpr (Or.inr hb0), List.mem_append.mpr (Or.inl ha0)⟩
  intro p hp q hq
  rcases List.mem_append.mp hp with hp | hp <;> rcases List.mem_append.mp hq with hq | hq
  · exact hmonoA _ _ (hA p hp q hq)
  · exact ((hmonoA _ _ (hA p hp a0 ha0)).trans hcross).trans (hmonoB _ _ (hB b0 hb0 q hq))
  · exact ((hmonoB _ _ (hB p hp b0 hb0)).trans hcross2).trans (hmonoA _ _ (hA a0 ha0 q hq))
  · exact hmonoB _ _ (hB p hp q hq)

/-! ### One merge turn preserves the invariant -/

theorem mergeStep_inv (w pc : Nat) (pal : List PaletteColor) (dms : Nat)
    (st : MergeState) (rId : Int) (hinv : MergeInv w pc st) (hact : rId ∈ st.activeIds) :
    MergeInv w pc (mergeStep w pc pal dms st rId) ∧
    (∀ x ∈ (mergeStep w pc pal dms st rId).activeIds, x ∈ st.activeIds) ∧
    (∀ x ∈ st.activeIds, x ≠ rId → x ∈ (mergeStep w pc pal dms st rId).activeIds) ∧
    (∀ x ∈ (mergeStep w pc pal dms st rId).activeIds,
      ∀ r1 ∈ st.regionList, r1.id = x →
      ∀ r2 ∈ (mergeStep w pc pal dms st rId).regionList, r2.id = x →
        r1.pixels.length ≤ r2.pixels.length) ∧
    ((mergeStep w pc pal dms st rId).regionList.map (fun r => r.id) =
      st.regionList.map (fun r => r.id)) := by
  obtain ⟨region, hfind, hregmem, hregid⟩ :=
    findRegion_exists st.regionList rId (hinv.act_mem rId hact)
  have htriv : ∀ st2 : MergeState, st2 = st →
      MergeInv w pc st2 ∧ (∀ x ∈ st2.activeIds, x ∈ st.activeIds) ∧
      (∀ x ∈ st.activeIds, x ≠ rId → x ∈ st2.activeIds) ∧
      (∀ x ∈ st2.activeIds, ∀ r1 ∈ st.regionList, r1.id = x →
        ∀ r2 ∈ st2.regionList, r2.id = x → r1.pixels.length ≤ r2.pixels.length) ∧
      (st2.regionList.map (fun r => r.id) = st.regionList.map (fun r => r.id)) := by
    intro st2 h
    rw [h]
    refine ⟨hinv, fun x hx => hx, fun x hx _ => hx, ?_, rfl⟩
    intro x _ r1 hr1 hid1 r2 hr2 hid2
    have heq : r1 = r2 := region_unique st.regionList hinv.ids_nodup r1 r2 hr1 hr2
      (hid1.trans hid2.symm)
    rw [heq]
  by_cases hsz : dms ≤ region.pixels.length
  · refine htriv _ ?_
    simp only [mergeStep, hfind, if_pos hsz]
  · by_cases hb : bestNeighborOf pal st.regionList region
        (collectNeighbors w pc st region) = -1
    · refine htriv _ ?_
      simp only [mergeStep, hfind, if_neg hsz, if_pos hb]
    · have hstep : mergeStep w pc pal dms st rId =
          { regionMap := region.pixels.foldl (fun m p => updF m p
              (bestNeighborOf pal st.regionList region (collectNeighbors w pc st region)))
              st.regionMap
            regionList := st.regionList.map (fun r =>
              if r.id = bestNeighborOf pal st.regionList region
                  (collectNeighbors w pc st region)
              then { r with pixels := r.pixels ++ region.pixels } else r)
            activeIds := st.activeIds.erase region.id } := by
        simp only [mergeStep, hfind, if_neg hsz, if_neg hb]
      set B := bestNeighborOf pal st.regionList region (collectNeighbors w pc st region)
        with hB
      have hbest_mem : B ∈ collectNeighbors w pc st region := by
        rcases bestNeighborOf_spec pal st.regionList region
          (collectNeighbors w pc st region) with h | h
        · exact absurd h hb
        · exact h
      obtain ⟨hbne, hbact, padj, hpadj, nadj, hnadj, h0adj, hltadj, hrmadj⟩ :=
        collectNeighbors_mem w pc st region B hbest_mem
      have hbne2 : B ≠ rId := by rw [← hregid]; exact hbne
      obtain ⟨target, htfind, htmem, htid⟩ :=
        findRegion_exists st.regionList B (hinv.act_mem B hbact)
      have hupd_id : ∀ r : Region,
          (if r.id = B then { r with pixels := r.pixels ++ region.pixels } else r).id
            = r.id := by
        intro r; split <;> rfl
      have hupd_pix : ∀ r : Region, ∀ p ∈ r.pixels,
          p ∈ (if r.id = B then { r with pixels := r.pixels ++ region.pixels }
            else r).pixels := by
        intro r p hp; split
        · exact List.mem_append.mpr (Or.inl hp)
        · exact hp
      have hupd_target : (if target.id = B then
          { target with pixels := target.pixels ++ region.pixels } else target) =
          { target with pixels := target.pixels ++ region.pixels } := if_pos htid
      have hupd_ne : ∀ r : Region, r.id ≠ B →
          (if r.id = B then { r with pixels := r.pixels ++ region.pixels } else r) = r := by
        intro r hr; exact if_neg hr
      have hids2 : (st.regionList.map (fun r =>
          if r.id = B then { r with pixels := r.pixels ++ region.pixels } else r)).map
            (fun r => r.id) = st.regionList.map (fun r => r.id) := by
        rw [List.map_map]
        exact List.map_congr_left (fun r _ => hupd_id r)
      have hdistinct : ∀ x1 x2, x1 ∈ st.activeIds → x2 ∈ st.activeIds → x1 ≠ x2 →
          ∀ r1 ∈ st.regionList, r1.id = x1 → ∀ r2 ∈ st.regionList, r2.id = x2 →
          ∀ p, p ∈ r1.pixels → p ∈ r2.pixels → False := by
        intro x1 x2 hx1 hx2 hne r1 hr1 hid1 r2 hr2 hid2 p hp1 hp2
        have e1 := hinv.rmap_eq x1 hx1 r1 hr1 hid1 p hp1
        have e2 := hinv.rmap_eq x2 hx2 r2 hr2 hid2 p hp2
        exact hne (e1.symm.trans e2)
      have hdisj_tc : ∀ p ∈ target.pixels, p ∉ region.pixels := by
        intro p hp hp2
        exact hdistinct B rId hbact hact hbne2 target htmem htid region hregmem hregid
          p hp hp2
      have herase : ∀ x, x ∈ st.activeIds.erase region.id → x ≠ rId ∧ x ∈ st.activeIds := by
        intro x hx
        rw [hregid] at hx
        exact (hinv.act_nodup.mem_erase_iff).mp hx
      have hmem_erase : ∀ x ∈ st.activeIds, x ≠ rId → x ∈ st.activeIds.erase region.id := by
        intro x hx hne
        rw [hregid]
        exact (List.mem_erase_of_ne hne).mpr hx
      have hBerase : B ∈ st.activeIds.erase region.id := hmem_erase B hbact hbne2
      have hrm2 : ∀ q, (region.pixels.foldl (fun m p => updF m p B) st.regionMap) q =
          if q ∈ region.pixels then B else st.regionMap q :=
        fun q => foldl_updF_mem B region.pixels st.regionMap q
      have hnadj_lt : nadj.toNat < pc := by omega
      have hnadj_target : nadj.toNat ∈ target.pixels := by
        obtain ⟨x1, hx1, r1, hr1, hid1, hp1⟩ := hinv.cover nadj.toNat hnadj_lt
        have hmap := hinv.rmap_eq x1 hx1 r1 hr1 hid1 nadj.toNat hp1
        rw [hrmadj] at hmap
        have hr1t : r1 = target := region_unique st.regionList hinv.ids_nodup r1 target hr1
          htmem (by rw [hid1, htid, hmap])
        rw [← hr1t]
        exact hp1
      rw [hstep]
      refine ⟨⟨?_, ?_, ?_, ?_, ?_, ?_, ?_, ?_, ?_, ?_⟩, ?_, ?_, ?_, ?_⟩
      · -- act_nodup
        exact hinv.act_nodup.erase region.id
      · -- act_nonneg
        intro rid hrid
        exact hinv.act_nonneg rid (herase rid hrid).2
      · -- act_mem
        intro rid hrid
        obtain ⟨r, hr, hid⟩ := hinv.act_mem rid (herase rid hrid).2
        exact ⟨_, List.mem_map.mpr ⟨r, hr, rfl⟩, (hupd_id r).trans hid⟩
      · -- ids_nodup
        show ((st.regionList.map (fun r =>
          if r.id = B then { r with pixels := r.pixels ++ region.pixels } else r)).map
            (fun r => r.id)).Nodup
        rw [hids2]
        exact hinv.ids_nodup
      · -- cover
        intro p hp
        obtain ⟨x0, hx0, r0, hr0, hid0, hpr0⟩ := hinv.cover p hp
        by_cases hx0r : x0 = rId
        · subst hx0r
          have hr0reg : r0 = region := region_unique st.regionList hinv.ids_nodup r0 region
            hr0 hregmem (hid0.trans hregid.symm)
          refine ⟨B, hBerase, { target with pixels := target.pixels ++ region.pixels },
            List.mem_map.mpr ⟨target, htmem, hupd_target⟩, htid, ?_⟩
          show p ∈ target.pixels ++ region.pixels
          refine List.mem_append.mpr (Or.inr ?_)
          rw [← hr0reg]
          exact hpr0
        · exact ⟨x0, hmem_erase x0 hx0 hx0r, _, List.mem_map.mpr ⟨r0, hr0, rfl⟩,
            (hupd_id r0).trans hid0, hupd_pix r0 p hpr0⟩
      · -- rmap_eq
        intro x hx r2 hr2 hid2 p hp2
        obtain ⟨r, hr, hr2eq⟩ := List.mem_map.mp hr2
        have hxact := (herase x hx).2
        have hxne := (herase x hx).1
        have hrid_x : r.id = x := by
          rw [← hid2, ← hr2eq]
          exact (hupd_id r).symm
        show (region.pixels.foldl (fun m p => updF m p B) st.regionMap) p = x
        rw [hrm2 p]
        by_cases hrB : r.id = B
        · have hrt : r = target := region_unique st.regionList hinv.ids_nodup r target hr
            htmem (hrB.trans htid.symm)
          subst hrt
          rw [hupd_target] at hr2eq
          subst hr2eq
          have hp3 : p ∈ r.pixels ++ region.pixels := hp2
          rcases List.mem_append.mp hp3 with hp4 | hp4
          · rw [if_neg (hdisj_tc p hp4)]
            exact hinv.rmap_eq x hxact r hr hrid_x p hp4
          · rw [if_pos hp4, ← hrid_x, hrB]
        · rw [hupd_ne r hrB] at hr2eq
          subst hr2eq
          have hpnotreg : p ∉ region.pixels := by
            intro hpr
            exact hdistinct x rId hxact hact hxne r hr hrid_x region hregmem hregid
              p hp2 hpr
          rw [if_neg hpnotreg]
          exact hinv.rmap_eq x hxact r hr hrid_x p hp2
      · -- px_lt
        intro x hx r2 hr2 hid2 p hp2
        obtain ⟨r, hr, hr2eq⟩ := List.mem_map.mp hr2
        have hxact := (herase x hx).2
        have hrid_x : r.id = x := by
          rw [← hid2, ← hr2eq]
          exact (hupd_id r).symm
        by_cases hrB : r.id = B
        · have hrt : r = target := region_unique st.regionList hinv.ids_nodup r target hr
            htmem (hrB.trans htid.symm)
          subst hrt
          rw [hupd_target] at hr2eq
          subst hr2eq
          have hp3 : p ∈ r.pixels ++ region.pixels := hp2
          rcases List.mem_append.mp hp3 with hp4 | hp4
          · exact hinv.px_lt x hxact r hr hrid_x p hp4
          · exact hinv.px_lt rId hact region hregmem hregid p hp4
        · rw [hupd_ne r hrB] at hr2eq
          subst hr2eq
          exact hinv.px_lt x hxact r hr hrid_x p hp2
      · -- px_nodup
        intro x hx r2 hr2 hid2
        obtain ⟨r, hr, hr2eq⟩ := List.mem_map.mp hr2
        have hxact := (herase x hx).2
        have hrid_x : r.id = x := by
          rw [← hid2, ← hr2eq]
          exact (hupd_id r).symm
        by_cases hrB : r.id = B
        · have hrt : r = target := region_unique st.regionList hinv.ids_nodup r target hr
            htmem (hrB.trans htid.symm)
          subst hrt
          rw [hupd_target] at hr2eq
          subst hr2eq
          show (r.pixels ++ region.pixels).Nodup
          refine (hinv.px_nodup B hbact r hr (hrB.trans htid.symm ▸ htid)).append
            (hinv.px_nodup rId hact region hregmem hregid) ?_
          intro a ha ha2
          exact hdisj_tc a ha ha2
        · rw [hupd_ne r hrB] at hr2eq
          subst hr2eq
          exact hinv.px_nodup x hxact r hr hrid_x
      · -- px_ne
        intro x hx r2 hr2 hid2
        obtain ⟨r, hr, hr2eq⟩ := List.mem_map.mp hr2
        have hxact := (herase x hx).2
        have hrid_x : r.id = x := by
          rw [← hid2, ← hr2eq]
          exact (hupd_id r).symm
        by_cases hrB : r.id = B
        · have hrt : r = target := region_unique st.regionList hinv.ids_nodup r target hr
            htmem (hrB.trans htid.symm)
          subst hrt
          rw [hupd_target] at hr2eq
          subst hr2eq
          show r.pixels ++ region.pixels ≠ []
          intro hnil
          exact hinv.px_ne x hxact r hr hrid_x (List.append_eq_nil.mp hnil).1
        · rw [hupd_ne r hrB] at hr2eq
          subst hr2eq
          exact hinv.px_ne x hxact r hr hrid_x
      · -- conn
        intro x hx r2 hr2 hid2
        obtain ⟨r, hr, hr2eq⟩ := List.mem_map.mp hr2
        have hxact := (herase x hx).2
        have hrid_x : r.id = x := by
          rw [← hid2, ← hr2eq]
          exact (hupd_id r).symm
        by_cases hrB : r.id = B
        · have hrt : r = target := region_unique st.regionList hinv.ids_nodup r target hr
            htmem (hrB.trans htid.symm)
          subst hrt
          rw [hupd_target] at hr2eq
          subst hr2eq
          show PixelsConnected w (r.pixels ++ region.pixels)
          refine pixelsConnected_append w r.pixels region.pixels
            (hinv.conn B hbact r hr (hrB.trans htid.symm ▸ htid))
            (hinv.conn rId hact region hregmem hregid)
            nadj.toNat padj hnadj_target hpadj ?_
          exact adj4_symm w (nbrs_adj w pc padj nadj hnadj h0adj hltadj)
        · rw [hupd_ne r hrB] at hr2eq
          subst hr2eq
          exact hinv.conn x hxact r hr hrid_x
      · -- activeIds shrink
        intro x hx
        exact (herase x hx).2
      · -- activeIds keep
        intro x hx hne
        exact hmem_erase x hx hne
      · -- sizes monotone
        intro x hx r1 hr1 hid1 r2 hr2 hid2
        obtain ⟨r, hr, hr2eq⟩ := List.mem_map.mp hr2
        have hrid_x : r.id = x := by
          rw [← hid2, ← hr2eq]
          exact (hupd_id r).symm
        have hr1r : r1 = r := region_unique st.regionList hinv.ids_nodup r1 r hr1 hr
          (hid1.trans hrid_x.symm)
        subst hr1r
        by_cases hrB : r1.id = B
        · have hrt : r1 = target := region_unique st.regionList hinv.ids_nodup r1 target hr
            htmem (hrB.trans htid.symm)
          subst hrt
          rw [hupd_target] at hr2eq
          subst hr2eq
          show r1.pixels.length ≤ (r1.pixels ++ region.pixels).length
          simp only [List.length_append]
          omega
        · rw [hupd_ne r1 hrB] at hr2eq
          subst hr2eq
          exact Nat.le_refl _
      · -- region ids unchanged
        exact hids2

/-! ### The merge pass -/

theorem foldl_fst_mem_cons {α γ : Type} (g : (α × Option γ) → α → (α × Option γ))
    (hg : ∀ acc n, (g acc n).1 = acc.1 ∨ (g acc n).1 = n)
    (hg0 : ∀ (a : α) (n : α), (g (a, none) n).1 = n) :
    ∀ (n : α) (t : List α) (a : α), ((n :: t).foldl g (a, none)).1 ∈ n :: t := by
  intro n t a
  rw [List.foldl_cons]
  rcases foldl_fst_mem g hg t (g (a, none) n) with h | h
  · rw [h, hg0 a n]
    exact List.mem_cons_self n t
  · exact List.mem_cons_of_mem n h

theorem bestNeighborOf_ne_nil (pal : List PaletteColor) (rl : List Region)
    (region : Region) :
    ∀ (l : List Int), l ≠ [] → bestNeighborOf pal rl region l ∈ l := by
  intro l hne
  cases l with
  | nil => exact absurd rfl hne
  | cons n t =>
    unfold bestNeighborOf
    refine foldl_fst_mem_cons _ ?_ ?_ n t (-1)
    · intro acc n2
      cases hacc : acc.2 with
      | none => right; simp only [hacc]
      | some m =>
        simp only [hacc]
        split
        · right; rfl
        · left; rfl
    · intro a n2
      rfl

theorem mergeStep_cases (w pc : Nat) (pal : List PaletteColor) (dms : Nat)
    (st : MergeState) (rId : Int) (hinv : MergeInv w pc st) (hact : rId ∈ st.activeIds) :
    ∃ region, findRegion st.regionList rId = some region ∧ region ∈ st.regionList ∧
      region.id = rId ∧
      ((dms ≤ region.pixels.length ∧ mergeStep w pc pal dms st rId = st) ∨
       (collectNeighbors w pc st region = [] ∧ mergeStep w pc pal dms st rId = st) ∨
       (rId ∉ (mergeStep w pc pal dms st rId).activeIds)) := by
  obtain ⟨region, hfind, hregmem, hregid⟩ :=
    findRegion_exists st.regionList rId (hinv.act_mem rId hact)
  refine ⟨region, hfind, hregmem, hregid, ?_⟩
  by_cases hsz : dms ≤ region.pixels.length
  · left
    exact ⟨hsz, by simp only [mergeStep, hfind, if_pos hsz]⟩
  · by_cases hb : bestNeighborOf pal st.regionList region
        (collectNeighbors w pc st region) = -1
    · right; left
      have hempty : collectNeighbors w pc st region = [] := by
        by_contra hne
        have hmem := bestNeighborOf_ne_nil pal st.regionList region _ hne
        rw [hb] at hmem
        have := hinv.act_nonneg (-1) (collectNeighbors_mem w pc st region (-1) hmem).2.1
        omega
      exact ⟨hempty, by simp only [mergeStep, hfind, if_neg hsz, if_pos hb]⟩
    · right; right
      have hstep : mergeStep w pc pal dms st rId =
          { regionMap := region.pixels.foldl (fun m p => updF m p
              (bestNeighborOf pal st.regionList region (collectNeighbors w pc st region)))
              st.regionMap
            regionList := st.regionList.map (fun r =>
              if r.id = bestNeighborOf pal st.regionList region
                  (collectNeighbors w pc st region)
              then { r with pixels := r.pixels ++ region.pixels } else r)
            activeIds := st.activeIds.erase region.id } := by
        simp only [mergeStep, hfind, if_neg hsz, if_neg hb]
      rw [hstep]
      show rId ∉ st.activeIds.erase region.id
      rw [hregid]
      intro hmem
      exact ((hinv.act_nodup.mem_erase_iff).mp hmem).1 rfl

theorem mergeFold_inv (w pc : Nat) (pal : List PaletteColor) (dms : Nat) :
    ∀ (l : List Int) (st : MergeState), MergeInv w pc st → l.Nodup →
      (∀ x ∈ l, x ∈ st.activeIds) →
      MergeInv w pc (l.foldl (mergeStep w pc pal dms) st) ∧
      (∀ x ∈ (l.foldl (mergeStep w pc pal dms) st).activeIds, x ∈ st.activeIds) := by
  intro l
  induction l with
  | nil => intro st hinv _ _; exact ⟨hinv, fun x hx => hx⟩
  | cons a t ih =>
    intro st hinv hnd hsub
    have hact : a ∈ st.activeIds := hsub a (List.mem_cons_self a t)
    obtain ⟨hinv2, hshrink, hkeep, _, _⟩ := mergeStep_inv w pc pal dms st a hinv hact
    have hsub2 : ∀ x ∈ t, x ∈ (mergeStep w pc pal dms st a).activeIds := by
      intro x hx
      have hne : x ≠ a := fun h => (List.nodup_cons.mp hnd).1 (h ▸ hx)
      exact hkeep x (hsub x (List.mem_cons_of_mem a hx)) hne
    obtain ⟨hinv3, hshrink3⟩ := ih _ hinv2 (List.nodup_cons.mp hnd).2 hsub2
    rw [List.foldl_cons]
    exact ⟨hinv3, fun x hx => hshrink x (hshrink3 x hx)⟩

/-- Size monotonicity and the skip property of the merge pass: every id
that is still active at the end was, at its own turn, either already at
or above the size threshold (and can only have grown since), or had an
empty neighbor list. -/
theorem mergeFold_c6 (w pc : Nat) (pal : List PaletteColor) (dms : Nat) :
    ∀ (l : List Int) (st : MergeState), MergeInv w pc st → l.Nodup →
      (∀ x ∈ l, x ∈ st.activeIds) →
      ∀ x ∈ (l.foldl (mergeStep w pc pal dms) st).activeIds,
        ∀ r2 ∈ (l.foldl (mergeStep w pc pal dms) st).regionList, r2.id = x →
        ((x ∈ l →
          dms ≤ r2.pixels.length ∨
          ∃ pre suf, l = pre ++ x :: suf ∧
            ∀ rx, findRegion (pre.foldl (mergeStep w pc pal dms) st).regionList x =
                some rx →
              collectNeighbors w pc (pre.foldl (mergeStep w pc pal dms) st) rx = []) ∧
        (x ∉ l → ∀ r1 ∈ st.regionList, r1.id = x → r1.pixels.length ≤ r2.pixels.length)) := by
  intro l
  induction l with
  | nil =>
    intro st hinv _ _ x hx r2 hr2 hid2
    refine ⟨fun hmem => absurd hmem (List.not_mem_nil x), ?_⟩
    intro _ r1 hr1 hid1
    have heq : r1 = r2 := region_unique st.regionList hinv.ids_nodup r1 r2 hr1 hr2
      (hid1.trans hid2.symm)
    rw [heq]
  | cons a t ih =>
    intro st hinv hnd hsub x hx r2 hr2 hid2
    have hact : a ∈ st.activeIds := hsub a (List.mem_cons_self a t)
    obtain ⟨hinv2, hshrink, hkeep, hsize, hidsame⟩ :=
      mergeStep_inv w pc pal dms st a hinv hact
    set st2 := mergeStep w pc pal dms st a with hst2
    have hsub2 : ∀ y ∈ t, y ∈ st2.activeIds := by
      intro y hy
      have hne : y ≠ a := fun h => (List.nodup_cons.mp hnd).1 (h ▸ hy)
      exact hkeep y (hsub y (List.mem_cons_of_mem a hy)) hne
    rw [List.foldl_cons] at hx hr2
    have IH := ih st2 hinv2 (List.nodup_cons.mp hnd).2 hsub2 x hx r2 hr2 hid2
    obtain ⟨hfold_inv, hfold_shrink⟩ :=
      mergeFold_inv w pc pal dms t st2 hinv2 (List.nodup_cons.mp hnd).2 hsub2
    have hx_st2 : x ∈ st2.activeIds := hfold_shrink x hx
    have hx_st : x ∈ st.activeIds := hshrink x hx_st2
    -- a chained size bound from st through st2 to the end
    have hchain : x ∉ t → ∀ r1 ∈ st.regionList, r1.id = x →
        r1.pixels.length ≤ r2.pixels.length := by
      intro hnx r1 hr1 hid1
      have hxid : x ∈ st2.regionList.map (fun r => r.id) := by
        rw [hidsame]
        exact List.mem_map.mpr ⟨r1, hr1, hid1⟩
      obtain ⟨rmid, hrmid, hidmid⟩ := List.mem_map.mp hxid
      exact Nat.le_trans (hsize x hx_st2 r1 hr1 hid1 rmid hrmid hidmid)
        (IH.2 hnx rmid hrmid hidmid)
    refine ⟨?_, ?_⟩
    · intro hmem
      rcases List.mem_cons.mp hmem with rfl | hmem2
      · -- x = a: its turn is the first one
        have hnx : x ∉ t := (List.nodup_cons.mp hnd).1
        obtain ⟨region, hfind, hregmem, hregid, hcases⟩ :=
          mergeStep_cases w pc pal dms st x hinv hact
        rcases hcases with ⟨hsz, heq⟩ | ⟨hempty, heq⟩ | habs
        · left
          refine Nat.le_trans hsz (hchain hnx region hregmem hregid)
        · right
          refine ⟨[], t, rfl, ?_⟩
          intro rx hrx
          obtain ⟨hrxmem, hrxid⟩ := findRegion_some st.regionList x rx hrx
          have hrxreg : rx = region := region_unique st.regionList hinv.ids_nodup rx region
            hrxmem hregmem (hrxid.trans hregid.symm)
          rw [hrxreg]
          exact hempty
        · exact absurd hx_st2 habs
      · -- x had its turn later, inside t
        rcases IH.1 hmem2 with hbig | ⟨pre, suf, hsplit, hnb⟩
        · left; exact hbig
        · right
          exact ⟨a :: pre, suf, by rw [hsplit, List.cons_append], hnb⟩
    · intro hnmem r1 hr1 hid1
      exact hchain (fun h => hnmem (List.mem_cons_of_mem a h)) r1 hr1 hid1

/-! ### Finalization stage -/

theorem foldl_fst_prop {β γ : Type} (P : β → Prop) :
    ∀ (l : List Nat) (g : (β × Option γ) → Nat → (β × Option γ)),
      (∀ acc, ∀ n ∈ l, (g acc n).1 = acc.1 ∨ P ((g acc n).1)) →
      ∀ acc, P acc.1 → P ((l.foldl g acc).1) := by
  intro l
  induction l with
  | nil => intro g _ acc h; exact h
  | cons n t ih =>
    intro g hg acc h
    rw [List.foldl_cons]
    refine ih g (fun acc2 n2 hn2 => hg acc2 n2 (List.mem_cons_of_mem n hn2)) (g acc n) ?_
    rcases hg acc n (List.mem_cons_self n t) with h2 | h2
    · rw [h2]; exact h
    · exact h2

theorem nearestPixel_mem (w : Nat) (pixels : List Nat) (cx cy : Nat)
    (hne : pixels ≠ []) : nearestPixel w pixels cx cy ∈ pixels := by
  have hlen : 0 < pixels.length := List.length_pos.mpr hne
  unfold nearestPixel
  refine foldl_fst_prop (fun x => x ∈ pixels) _ _ ?_ _ ?_
  · intro acc n hn
    have hnlt : n < pixels.length := by
      simp only [List.mem_map, List.mem_range] at hn
      obtain ⟨j, hj, hjn⟩ := hn
      set step := Nat.max 1 (pixels.length / 100) with hstep
      have hstep1 : 1 ≤ step := Nat.le_max_left 1 _
      have hcnt : (pixels.length + step - 1) / step = (pixels.length - 1) / step + 1 := by
        have h1 : pixels.length + step - 1 = (pixels.length - 1) + step := by omega
        rw [h1, Nat.add_div_right _ (by omega)]
      rw [hcnt] at hj
      have hj2 : j ≤ (pixels.length - 1) / step := by omega
      have hj3 : j * step ≤ ((pixels.length - 1) / step) * step :=
        Nat.mul_le_mul_right step hj2
      have hj4 : ((pixels.length - 1) / step) * step ≤ pixels.length - 1 :=
        Nat.div_mul_le_self _ _
      omega
    cases hacc : acc.2 with
    | none =>
      right
      exact getD_mem_of_lt pixels n 0 hnlt
    | some m =>
      simp only [hacc]
      split
      · right; exact getD_mem_of_lt pixels n 0 hnlt
      · left; rfl
  · exact getD_mem_of_lt pixels 0 0 hlen

theorem finalizeRegion_fields (w pc : Nat) (rmap : Nat → Int) (region : Region) :
    (finalizeRegion w pc rmap region).pixels = region.pixels ∧
    (finalizeRegion w pc rmap region).id = region.id ∧
    (finalizeRegion w pc rmap region).colorId = region.colorId ∧
    (finalizeRegion w pc rmap region).borderPixels =
      region.pixels.filter (isBorderPixel w pc rmap region.id) := by
  unfold finalizeRegion
  dsimp only
  split
  · exact ⟨rfl, rfl, rfl, rfl⟩
  · exact ⟨rfl, rfl, rfl, rfl⟩

theorem finalizeRegion_centroid (w pc : Nat) (rmap : Nat → Int) (region : Region)
    (hne : region.pixels ≠ [])
    (hmem : ∀ p ∈ region.pixels, rmap p = region.id) :
    rmap ((finalizeRegion w pc rmap region).centroid.2 * w +
      (finalizeRegion w pc rmap region).centroid.1) =
      (finalizeRegion w pc rmap region).id := by
  unfold finalizeRegion
  dsimp only
  split
  · rename_i hc
    exact hc
  · rename_i hc
    have hbp := nearestPixel_mem w region.pixels
      (roundDiv (region.pixels.foldl (fun s p => s + p % w) 0) region.pixels.length)
      (roundDiv (region.pixels.foldl (fun s p => s + p / w) 0) region.pixels.length) hne
    set bestP := nearestPixel w region.pixels
      (roundDiv (region.pixels.foldl (fun s p => s + p % w) 0) region.pixels.length)
      (roundDiv (region.pixels.foldl (fun s p => s + p / w) 0) region.pixels.length)
      with hbestP
    show rmap (bestP / w * w + bestP % w) = region.id
    have hdm : bestP / w * w + bestP % w = bestP := by
      rw [Nat.mul_comm]
      exact Nat.div_add_mod bestP w
    rw [hdm]
    exact hmem bestP hbp

theorem filterMap_findRegion_ids (rl : List Region) :
    ∀ (acts : List Int), (∀ x ∈ acts, ∃ r ∈ rl, r.id = x) →
      ((acts.filterMap (fun rid => findRegion rl rid)).map (fun r => r.id)) = acts := by
  intro acts
  induction acts with
  | nil => intro _; rfl
  | cons a t ih =>
    intro h
    obtain ⟨r, hfind, _, hid⟩ := findRegion_exists rl a (h a (List.mem_cons_self a t))
    rw [List.filterMap_cons, hfind, List.map_cons, hid,
      ih (fun x hx => h x (List.mem_cons_of_mem a hx))]

/-! ### Facts about the assembled pipeline -/

theorem pipeMerged_inv (w : Nat) (data : Nat → Nat) (pc : Nat) (samples : List Nat) :
    MergeInv w pc (pipeMerged w data pc samples) ∧
    (∀ x ∈ (pipeMerged w data pc samples).activeIds,
      x ∈ pipeSorted w data pc samples) := by
  have h0 : MergeInv w pc (pipeMerge0 w data pc samples) :=
    mergeInv_init w pc (pipeRemap data pc samples)
  have hperm : List.Perm (pipeSorted w data pc samples)
      (pipeMerge0 w data pc samples).activeIds :=
    sortByKey_perm (sizeKey (pipeMerge0 w data pc samples).regionList)
      (pipeMerge0 w data pc samples).activeIds
  have hnd : (pipeSorted w data pc samples).Nodup := (hperm.nodup_iff).mpr h0.act_nodup
  have hsub : ∀ x ∈ pipeSorted w data pc samples,
      x ∈ (pipeMerge0 w data pc samples).activeIds := fun x hx => hperm.mem_iff.mp hx
  obtain ⟨hinv, hshrink⟩ := mergeFold_inv w pc (pipePalette data pc samples)
    (dynamicMinSize pc) (pipeSorted w data pc samples) (pipeMerge0 w data pc samples)
    h0 hnd hsub
  exact ⟨hinv, fun x hx => hperm.mem_iff.mpr (hshrink x hx)⟩

theorem pipeFinal_src (w : Nat) (data : Nat → Nat) (pc : Nat) (samples : List Nat) :
    ∀ r ∈ pipeFinalized w data pc samples,
      ∃ r0 ∈ (pipeMerged w data pc samples).regionList,
        r0.id ∈ (pipeMerged w data pc samples).activeIds ∧
        r = finalizeRegion w pc (pipeMerged w data pc samples).regionMap r0 ∧
        r.pixels = r0.pixels ∧ r.id = r0.id := by
  intro r hr
  obtain ⟨r0, hr0, hfin⟩ := List.mem_map.mp hr
  obtain ⟨rid, hrid, hfind⟩ := List.mem_filterMap.mp hr0
  obtain ⟨hr0mem, hr0id⟩ := findRegion_some _ _ _ hfind
  obtain ⟨hpx, hid, _, _⟩ := finalizeRegion_fields w pc
    (pipeMerged w data pc samples).regionMap r0
  refine ⟨r0, hr0mem, ?_, hfin.symm, ?_, ?_⟩
  · rw [hr0id]; exact hrid
  · rw [← hfin]; exact hpx
  · rw [← hfin]; exact hid

theorem pipeFinal_ids (w : Nat) (data : Nat → Nat) (pc : Nat) (samples : List Nat) :
    (pipeFinalized w data pc samples).map (fun r => r.id) =
      (pipeMerged w data pc samples).activeIds := by
  have hinv := (pipeMerged_inv w data pc samples).1
  have h1 : (pipeFinalized w data pc samples).map (fun r => r.id) =
      (pipeFinalRegions w data pc samples).map (fun r => r.id) := by
    unfold pipeFinalized
    rw [List.map_map]
    refine List.map_congr_left ?_
    intro r _
    exact (finalizeRegion_fields w pc (pipeMerged w data pc samples).regionMap r).2.1
  rw [h1]
  exact filterMap_findRegion_ids (pipeMerged w data pc samples).regionList
    (pipeMerged w data pc samples).activeIds hinv.act_mem

theorem pipeFinal_cover (w : Nat) (data : Nat → Nat) (pc : Nat) (samples : List Nat) :
    ∀ p, p < pc → ∃ r ∈ pipeFinalized w data pc samples, p ∈ r.pixels ∧
      (pipeMerged w data pc samples).regionMap p = r.id := by
  intro p hp
  have hinv := (pipeMerged_inv w data pc samples).1
  obtain ⟨rid, hrid, rr, hrr, hrrid, hprr⟩ := hinv.cover p hp
  obtain ⟨r0, hfind, hr0mem, hr0id⟩ :=
    findRegion_exists (pipeMerged w data pc samples).regionList rid (hinv.act_mem rid hrid)
  have hr0rr : r0 = rr := region_unique _ hinv.ids_nodup r0 rr hr0mem hrr
    (hr0id.trans hrrid.symm)
  have hfrs : r0 ∈ pipeFinalRegions w data pc samples :=
    List.mem_filterMap.mpr ⟨rid, hrid, hfind⟩
  obtain ⟨hpx, hid, _, _⟩ := finalizeRegion_fields w pc
    (pipeMerged w data pc samples).regionMap r0
  refine ⟨finalizeRegion w pc (pipeMerged w data pc samples).regionMap r0,
    List.mem_map.mpr ⟨r0, hfrs, rfl⟩, ?_, ?_⟩
  · rw [hpx, hr0rr]; exact hprr
  · rw [hid, hr0id]
    exact hinv.rmap_eq rid hrid rr hrr hrrid p hprr

theorem pipeFinal_rmap (w : Nat) (data : Nat → Nat) (pc : Nat) (samples : List Nat) :
    ∀ r ∈ pipeFinalized w data pc samples, ∀ p ∈ r.pixels,
      (pipeMerged w data pc samples).regionMap p = r.id ∧ p < pc := by
  intro r hr p hp
  have hinv := (pipeMerged_inv w data pc samples).1
  obtain ⟨r0, hr0mem, hr0act, _, hpx, hid⟩ := pipeFinal_src w data pc samples r hr
  rw [hpx] at hp
  rw [hid]
  exact ⟨hinv.rmap_eq r0.id hr0act r0 hr0mem rfl p hp,
    hinv.px_lt r0.id hr0act r0 hr0mem rfl p hp⟩

theorem pipeFinal_nodup_ids (w : Nat) (data : Nat → Nat) (pc : Nat) (samples : List Nat) :
    ((pipeFinalized w data pc samples).map (fun r => r.id)).Nodup := by
  rw [pipeFinal_ids]
  exact (pipeMerged_inv w data pc samples).1.act_nodup

theorem pipeFinal_unique (w : Nat) (data : Nat → Nat) (pc : Nat) (samples : List Nat) :
    ∀ r1 ∈ pipeFinalized w data pc samples, ∀ r2 ∈ pipeFinalized w data pc samples,
      r1.id = r2.id → r1 = r2 := by
  intro r1 h1 r2 h2 hid
  exact List.inj_on_of_nodup_map (pipeFinal_nodup_ids w data pc samples) h1 h2 hid

theorem pipeFinal_px (w : Nat) (data : Nat → Nat) (pc : Nat) (samples : List Nat) :
    ∀ r ∈ pipeFinalized w data pc samples, r.pixels.Nodup ∧ r.pixels ≠ [] := by
  intro r hr
  have hinv := (pipeMerged_inv w data pc samples).1
  obtain ⟨r0, hr0mem, hr0act, _, hpx, _⟩ := pipeFinal_src w data pc samples r hr
  rw [hpx]
  exact ⟨hinv.px_nodup r0.id hr0act r0 hr0mem rfl, hinv.px_ne r0.id hr0act r0 hr0mem rfl⟩

theorem pipeFinal_sum (w : Nat) (data : Nat → Nat) (pc : Nat) (samples : List Nat) :
    ((pipeFinalized w data pc samples).map (fun r => r.pixels.length)).sum = pc := by
  set F := pipeFinalized w data pc samples with hF
  have hnodup_each : ∀ l ∈ F.map (fun r => r.pixels), l.Nodup := by
    intro l hl
    obtain ⟨r, hr, hrl⟩ := List.mem_map.mp hl
    rw [← hrl]
    exact (pipeFinal_px w data pc samples r hr).1
  have hpairwise : (F.map (fun r => r.pixels)).Pairwise List.Disjoint := by
    rw [List.pairwise_map]
    have hids : F.Pairwise (fun r1 r2 => r1.id ≠ r2.id) := by
      have h1 : (F.map (fun r => r.id)).Pairwise (fun a b => a ≠ b) :=
        pipeFinal_nodup_ids w data pc samples
      exact List.pairwise_map.mp h1
    refine hids.imp_of_mem ?_
    intro r1 r2 h1 h2 hne q hq1 hq2
    have e1 := (pipeFinal_rmap w data pc samples r1 h1 q hq1).1
    have e2 := (pipeFinal_rmap w data pc samples r2 h2 q hq2).1
    exact hne (e1.symm.trans e2)
  have hflat_nodup : (F.map (fun r => r.pixels)).flatten.Nodup :=
    List.nodup_flatten.2 ⟨hnodup_each, hpairwise⟩
  have hmem_iff : ∀ q, q ∈ (F.map (fun r => r.pixels)).flatten ↔ q ∈ List.range pc := by
    intro q
    rw [List.mem_flatten, List.mem_range]
    constructor
    · rintro ⟨l, hl, hql⟩
      obtain ⟨r, hr, hrl⟩ := List.mem_map.mp hl
      rw [← hrl] at hql
      exact (pipeFinal_rmap w data pc samples r hr q hql).2
    · intro hq
      obtain ⟨r, hr, hqr, _⟩ := pipeFinal_cover w data pc samples q hq
      exact ⟨r.pixels, List.mem_map.mpr ⟨r, hr, rfl⟩, hqr⟩
  have hperm : List.Perm (F.map (fun r => r.pixels)).flatten (List.range pc) :=
    (List.perm_ext_iff_of_nodup hflat_nodup (List.nodup_range pc)).2 hmem_iff
  have hlen := hperm.length_eq
  rw [List.length_flatten, List.length_range] at hlen
  have hcomp : (F.map (fun r => r.pixels)).map List.length =
      F.map (fun r => r.pixels.length) := by
    rw [List.map_map]
    rfl
  rw [hcomp] at hlen
  exact hlen

/-! ## The claims -/

/-- C1 counterexample: in the output for the 2×2 image with a red top row
and green bottom row (samples 0 and 2, maxColors 2), the merge pass leaves
a single region whose id is 1, so `regionMap` does not hold positional
indices into the emitted `regions` array: pixel 0 belongs to
`regions[0]` but `regionMap[0] = 1 ≠ 0`. -/
theorem regionMap_not_positional :
    0 ∈ ((processImageForColoring 2 2 dataTB 2 [0, 2]).regions.getD 0 defaultRegion).pixels ∧
    (processImageForColoring 2 2 dataTB 2 [0, 2]).regionMap 0 ≠ 0 := by
  decide

/-- C1 (amended): in the emitted ProcessedImage, `regionMap[p]` is the
`id` of the region containing `p` — `regionMap[p] = r.id` iff
`p ∈ r.pixels` for every emitted region `r` — and no `-1` remains. -/
theorem regionMap_id_iff (width height maxColors : Nat) (data : Nat → Nat)
    (samples : List Nat) (p : Nat) (hp : p < width * height) :
    (processImageForColoring width height data maxColors samples).regionMap p ≠ -1 ∧
    ∀ r ∈ (processImageForColoring width height data maxColors samples).regions,
      ((processImageForColoring width height data maxColors samples).regionMap p = r.id ↔
        p ∈ r.pixels) := by
  have hreg : (processImageForColoring width height data maxColors samples).regions =
      pipeFinalized width data (width * height) samples := rfl
  have hmap : (processImageForColoring width height data maxColors samples).regionMap =
      (pipeMerged width data (width * height) samples).regionMap := rfl
  rw [hreg, hmap]
  obtain ⟨r0, hr0, hp0, he0⟩ := pipeFinal_cover width data (width * height) samples p hp
  have hinv := (pipeMerged_inv width data (width * height) samples).1
  constructor
  · rw [he0]
    obtain ⟨rr, hrrmem, hrr0, _, _, hid⟩ :=
      pipeFinal_src width data (width * height) samples r0 hr0
    have := hinv.act_nonneg r0.id (hid ▸ hrr0)
    omega
  · intro r hr
    constructor
    · intro heq
      have : r = r0 := pipeFinal_unique width data (width * height) samples r hr r0 hr0
        (by rw [← heq, he0])
      rw [this]
      exact hp0
    · intro hpr
      exact (pipeFinal_rmap width data (width * height) samples r hr p hpr).1

theorem regionMap_id_iff_witness :
    0 < 2 * 2 ∧
    ((processImageForColoring 2 2 dataTB 2 [0, 2]).regionMap 0 ≠ -1 ∧
    ∀ r ∈ (processImageForColoring 2 2 dataTB 2 [0, 2]).regions,
      ((processImageForColoring 2 2 dataTB 2 [0, 2]).regionMap 0 = r.id ↔
        0 ∈ r.pixels)) :=
  ⟨by decide, regionMap_id_iff 2 2 2 dataTB [0, 2] 0 (by decide)⟩

/-- C2: the source performs no input validation at all.  With
`maxColors = 1` (which the specification classifies as the `InvalidK`
error) the processor still returns a normal `ProcessedImage` — here with
one palette entry and one region — instead of surfacing an error; the
embedding is total exactly because the source has no error path. -/
theorem invalidK_returns_image :
    (processImageForColoring 2 2 dataU 1 [0]).palette.length = 1 ∧
    (processImageForColoring 2 2 dataU 1 [0]).regions.length = 1 := by
  decide

/-- C3: every pixel index below `width*height` is mapped by `regionMap`
to the id of exactly one emitted region, lies in that region's pixel
list, and the emitted region sizes sum to `width*height`. -/
theorem regionMap_exactly_one (width height maxColors : Nat) (data : Nat → Nat)
    (samples : List Nat) (p : Nat) (hp : p < width * height) :
    (∃ r ∈ (processImageForColoring width height data maxColors samples).regions,
      (processImageForColoring width height data maxColors samples).regionMap p = r.id ∧
      p ∈ r.pixels ∧
      ∀ r2 ∈ (processImageForColoring width height data maxColors samples).regions,
        ((processImageForColoring width height data maxColors samples).regionMap p = r2.id ∨
          p ∈ r2.pixels) → r2 = r) ∧
    ((processImageForColoring width height data maxColors samples).regions.map
      (fun r => r.pixels.length)).sum = width * height := by
  have hreg : (processImageForColoring width height data maxColors samples).regions =
      pipeFinalized width data (width * height) samples := rfl
  have hmap : (processImageForColoring width height data maxColors samples).regionMap =
      (pipeMerged width data (width * height) samples).regionMap := rfl
  rw [hreg, hmap]
  constructor
  · obtain ⟨r0, hr0, hp0, he0⟩ := pipeFinal_cover width data (width * height) samples p hp
    refine ⟨r0, hr0, he0, hp0, ?_⟩
    intro r2 hr2 hcase
    rcases hcase with heq | hpr2
    · exact pipeFinal_unique width data (width * height) samples r2 hr2 r0 hr0
        (by rw [← heq, he0])
    · have := (pipeFinal_rmap width data (width * height) samples r2 hr2 p hpr2).1
      exact pipeFinal_unique width data (width * height) samples r2 hr2 r0 hr0
        (by rw [← this, he0])
  · exact pipeFinal_sum width data (width * height) samples

theorem regionMap_exactly_one_witness :
    0 < 2 * 2 ∧
    ((∃ r ∈ (processImageForColoring 2 2 dataTB 2 [0, 2]).regions,
      (processImageForColoring 2 2 dataTB 2 [0, 2]).regionMap 0 = r.id ∧
      0 ∈ r.pixels ∧
      ∀ r2 ∈ (processImageForColoring 2 2 dataTB 2 [0, 2]).regions,
        ((processImageForColoring 2 2 dataTB 2 [0, 2]).regionMap 0 = r2.id ∨
          0 ∈ r2.pixels) → r2 = r) ∧
    ((processImageForColoring 2 2 dataTB 2 [0, 2]).regions.map
      (fun r => r.pixels.length)).sum = 2 * 2) :=
  ⟨by decide, regionMap_exactly_one 2 2 2 dataTB [0, 2] 0 (by decide)⟩

/-- C4: every emitted region's centroid lies on a pixel of that region:
`regionMap[centroid.y * width + centroid.x] = r.id`, whether the rounded
mean centroid was kept or the sampled nearest-pixel correction ran. -/
theorem centroid_in_region (width height maxColors : Nat) (data : Nat → Nat)
    (samples : List Nat) (r : Region)
    (hr : r ∈ (processImageForColoring width height data maxColors samples).regions) :
    (processImageForColoring width height data maxColors samples).regionMap
      (r.centroid.2 * width + r.centroid.1) = r.id := by
  have hreg : (processImageForColoring width height data maxColors samples).regions =
      pipeFinalized width data (width * height) samples := rfl
  have hmap : (processImageForColoring width height data maxColors samples).regionMap =
      (pipeMerged width data (width * height) samples).regionMap := rfl
  rw [hreg] at hr
  rw [hmap]
  have hinv := (pipeMerged_inv width data (width * height) samples).1
  obtain ⟨r0, hr0mem, hr0act, hfin, _, _⟩ :=
    pipeFinal_src width data (width * height) samples r hr
  rw [hfin]
  exact finalizeRegion_centroid width (width * height)
    (pipeMerged width data (width * height) samples).regionMap r0
    (hinv.px_ne r0.id hr0act r0 hr0mem rfl)
    (fun p hp => hinv.rmap_eq r0.id hr0act r0 hr0mem rfl p hp)

theorem centroid_in_region_witness :
    ((processImageForColoring 2 2 dataTB 2 [0, 2]).regions.getD 0 defaultRegion ∈
      (processImageForColoring 2 2 dataTB 2 [0, 2]).regions) ∧
    (processImageForColoring 2 2 dataTB 2 [0, 2]).regionMap
      (((processImageForColoring 2 2 dataTB 2 [0, 2]).regions.getD 0 defaultRegion).centroid.2
        * 2 +
       ((processImageForColoring 2 2 dataTB 2 [0, 2]).regions.getD 0 defaultRegion).centroid.1)
      = ((processImageForColoring 2 2 dataTB 2 [0, 2]).regions.getD 0 defaultRegion).id :=
  ⟨by decide, centroid_in_region 2 2 2 dataTB [0, 2] _ (by decide)⟩

/-- C6: every emitted region either meets the dynamic size threshold
`max(20, ⌊width*height/40000⌋)`, or at its turn in the ascending-size
merge pass its collected list of active neighbor ids was empty (it was
skipped and kept). -/
theorem small_region_skip (width height maxColors : Nat) (data : Nat → Nat)
    (samples : List Nat) (r : Region)
    (hr : r ∈ (processImageForColoring width height data maxColors samples).regions) :
    dynamicMinSize (width * height) ≤ r.pixels.length ∨
    ∃ pre suf, pipeSorted width data (width * height) samples = pre ++ r.id :: suf ∧
      ∀ rx, findRegion ((pre.foldl (mergeStep width (width * height)
          (pipePalette data (width * height) samples) (dynamicMinSize (width * height)))
          (pipeMerge0 width data (width * height) samples)).regionList) r.id = some rx →
        collectNeighbors width (width * height)
          (pre.foldl (mergeStep width (width * height)
            (pipePalette data (width * height) samples) (dynamicMinSize (width * height)))
            (pipeMerge0 width data (width * height) samples)) rx = [] := by
  have hreg : (processImageForColoring width height data maxColors samples).regions =
      pipeFinalized width data (width * height) samples := rfl
  rw [hreg] at hr
  obtain ⟨r0, hr0mem, hr0act, _, hpx, hid⟩ :=
    pipeFinal_src width data (width * height) samples r hr
  have h0 : MergeInv width (width * height) (pipeMerge0 width data (width * height) samples) :=
    mergeInv_init width (width * height) (pipeRemap data (width * height) samples)
  have hperm : List.Perm (pipeSorted width data (width * height) samples)
      (pipeMerge0 width data (width * height) samples).activeIds :=
    sortByKey_perm (sizeKey (pipeMerge0 width data (width * height) samples).regionList)
      (pipeMerge0 width data (width * height) samples).activeIds
  have hnd : (pipeSorted width data (width * height) samples).Nodup :=
    (hperm.nodup_iff).mpr h0.act_nodup
  have hsub : ∀ x ∈ pipeSorted width data (width * height) samples,
      x ∈ (pipeMerge0 width data (width * height) samples).activeIds :=
    fun x hx => hperm.mem_iff.mp hx
  have hc6 := mergeFold_c6 width (width * height)
    (pipePalette data (width * height) samples) (dynamicMinSize (width * height))
    (pipeSorted width data (width * height) samples)
    (pipeMerge0 width data (width * height) samples) h0 hnd hsub
    r0.id hr0act r0 hr0mem rfl
  have hmem : r0.id ∈ pipeSorted width data (width * height) samples :=
    (pipeMerged_inv width data (width * height) samples).2 r0.id hr0act
  rcases hc6.1 hmem with hbig | ⟨pre, suf, hsplit, hnb⟩
  · left
    rw [hpx]
    exact hbig
  · right
    rw [hid]
    exact ⟨pre, suf, hsplit, hnb⟩

theorem small_region_skip_witness :
    ((processImageForColoring 2 2 dataTB 2 [0, 2]).regions.getD 0 defaultRegion ∈
      (processImageForColoring 2 2 dataTB 2 [0, 2]).regions) ∧
    (dynamicMinSize (2 * 2) ≤
      ((processImageForColoring 2 2 dataTB 2 [0, 2]).regions.getD 0 defaultRegion).pixels.length ∨
    ∃ pre suf, pipeSorted 2 dataTB (2 * 2) [0, 2] = pre ++
        ((processImageForColoring 2 2 dataTB 2 [0, 2]).regions.getD 0 defaultRegion).id :: suf ∧
      ∀ rx, findRegion ((pre.foldl (mergeStep 2 (2 * 2)
          (pipePalette dataTB (2 * 2) [0, 2]) (dynamicMinSize (2 * 2)))
          (pipeMerge0 2 dataTB (2 * 2) [0, 2])).regionList)
          ((processImageForColoring 2 2 dataTB 2 [0, 2]).regions.getD 0 defaultRegion).id
          = some rx →
        collectNeighbors 2 (2 * 2)
          (pre.foldl (mergeStep 2 (2 * 2)
            (pipePalette dataTB (2 * 2) [0, 2]) (dynamicMinSize (2 * 2)))
            (pipeMerge0 2 dataTB (2 * 2) [0, 2])) rx = []) :=
  ⟨by decide, small_region_skip 2 2 2 dataTB [0, 2] _ (by decide)⟩

/-- C7: each emitted region's pixel set is 4-connected: any two of its
pixels are joined by a path of up/down/left/right steps that stays inside
the region's pixel list, both for directly extracted and for merged
regions. -/
theorem region_pixels_connected (width height maxColors : Nat) (data : Nat → Nat)
    (samples : List Nat) (r : Region)
    (hr : r ∈ (processImageForColoring width height data maxColors samples).regions)
    (p : Nat) (hp : p ∈ r.pixels) (q : Nat) (hq : q ∈ r.pixels) :
    Relation.ReflTransGen (stepIn width r.pixels) p q := by
  have hreg : (processImageForColoring width height data maxColors samples).regions =
      pipeFinalized width data (width * height) samples := rfl
  rw [hreg] at hr
  have hinv := (pipeMerged_inv width data (width * height) samples).1
  obtain ⟨r0, hr0mem, hr0act, _, hpx, _⟩ :=
    pipeFinal_src width data (width * height) samples r hr
  rw [hpx] at hp hq ⊢
  exact hinv.conn r0.id hr0act r0 hr0mem rfl p hp q hq

theorem region_pixels_connected_witness :
    ((processImageForColoring 2 2 dataTB 2 [0, 2]).regions.getD 0 defaultRegion ∈
      (processImageForColoring 2 2 dataTB 2 [0, 2]).regions) ∧
    0 ∈ ((processImageForColoring 2 2 dataTB 2 [0, 2]).regions.getD 0 defaultRegion).pixels ∧
    3 ∈ ((processImageForColoring 2 2 dataTB 2 [0, 2]).regions.getD 0 defaultRegion).pixels ∧
    Relation.ReflTransGen (stepIn 2
      ((processImageForColoring 2 2 dataTB 2 [0, 2]).regions.getD 0 defaultRegion).pixels)
      0 3 :=
  ⟨by decide, by decide, by decide,
    region_pixels_connected 2 2 2 dataTB [0, 2] _ (by decide) 0 (by decide) 3 (by decide)⟩

/-- C10: the embedding makes the random centroid draws (lines 36-43) the
only nondeterministic input; with the same drawn sample indices and the
same pixel bytes, two runs produce identical `ProcessedImage` values. -/
theorem process_deterministic (width height maxColors : Nat) (data1 data2 : Nat → Nat)
    (samples1 samples2 : List Nat) (hdata : ∀ i, data1 i = data2 i)
    (hsamples : samples1 = samples2) :
    processImageForColoring width height data1 maxColors samples1 =
      processImageForColoring width height data2 maxColors samples2 := by
  subst hsamples
  have hfun : data1 = data2 := funext hdata
  rw [hfun]

theorem process_deterministic_witness :
    processImageForColoring 2 2 dataU 2 [0, 3] =
      processImageForColoring 2 2 dataU 2 [0, 3] :=
  process_deterministic 2 2 2 dataU dataU [0, 3] [0, 3] (fun _ => rfl) rfl

/-! ### C5: the border test in image coordinates -/

theorem isBorder_iff (w h : Nat) (hw : 0 < w) (hh : 0 < h) (rmap : Nat → Int) (rid : Int)
    (p : Nat) (hp : p < w * h) :
    isBorderPixel w (w * h) rmap rid p = true ↔ BorderSpec w h rmap rid p := by
  have hx : p % w < w := Nat.mod_lt p hw
  have hy : p / w < h := Nat.div_lt_iff_lt_mul hw |>.mpr (by rw [Nat.mul_comm]; exact hp)
  have hdm := Nat.div_add_mod p w
  have hu4 : w * (p / w) + w ≤ w * h := by
    have h1 : w * (p / w + 1) ≤ w * h := Nat.mul_le_mul_left w hy
    have h2 : w * (p / w + 1) = w * (p / w) + w := by ring
    omega
  have hy0 : p / w = 0 ↔ p < w := by
    constructor
    · intro h0
      have h1 : w * (p / w) = 0 := by rw [h0, Nat.mul_zero]
      omega
    · exact Nat.div_eq_of_lt
  have hypos : w ≤ p → 0 < p / w := fun h1 => Nat.div_pos h1 hw
  have hyh : w * h ≤ p + w ↔ p / w = h - 1 := by
    constructor
    · intro h0
      by_contra hne
      have h2 : p / w + 2 ≤ h := by omega
      have h3 : w * (p / w + 2) ≤ w * h := Nat.mul_le_mul_left w h2
      have h4 : w * (p / w + 2) = w * (p / w) + w + w := by ring
      omega
    · intro h0
      have h2 : h ≤ p / w + 1 := by omega
      have h3 : w * h ≤ w * (p / w + 1) := Nat.mul_le_mul_left w h2
      have h4 : w * (p / w + 1) = w * (p / w) + w := by ring
      omega
  unfold isBorderPixel
  constructor
  · intro hb
    obtain ⟨n, hn, hcond⟩ := List.any_eq_true.mp hb
    simp only [nbrs, List.mem_cons, List.not_mem_nil, or_false] at hn
    simp only [Bool.or_eq_true, decide_eq_true_iff] at hcond
    unfold BorderSpec
    rcases hn with rfl | rfl | rfl | rfl
    · -- up neighbor
      rcases hcond with (h0 | h0) | h0
      · left; rw [hy0]; omega
      · exact absurd h0 (by omega)
      · by_cases hpw : p < w
        · left; rw [hy0]; exact hpw
        · have ht : (((p : Int) - (w : Int)).toNat) = p - w := by omega
          rw [ht] at h0
          exact Or.inr (Or.inr (Or.inr (Or.inr (Or.inl
            ⟨hypos (by omega), h0⟩))))
    · -- down neighbor
      rcases hcond with (h0 | h0) | h0
      · exact absurd h0 (by omega)
      · right; left; rw [← hyh]; omega
      · by_cases hlast : w * h ≤ p + w
        · right; left; rw [← hyh]; exact hlast
        · have ht : (((p : Int) + (w : Int)).toNat) = p + w := by omega
          rw [ht] at h0
          refine Or.inr (Or.inr (Or.inr (Or.inr (Or.inr (Or.inl ⟨?_, h0⟩)))))
          by_contra hcon
          exact hlast (hyh.mpr (by omega))
    · -- left neighbor
      by_cases hg : 0 < p % w
      · rw [if_pos hg] at hcond
        have hp1 : 0 < p := by omega
        rcases hcond with (h0 | h0) | h0
        · exact absurd h0 (by omega)
        · exact absurd h0 (by omega)
        · have ht : (((p : Int) - 1).toNat) = p - 1 := by omega
          rw [ht] at h0
          exact Or.inr (Or.inr (Or.inr (Or.inr (Or.inr (Or.inr (Or.inl ⟨hg, h0⟩))))))
      · right; right; left; omega
    · -- right neighbor
      by_cases hg : p % w < w - 1
      · rw [if_pos hg] at hcond
        have hrow : p + 1 < w * h := by omega
        rcases hcond with (h0 | h0) | h0
        · exact absurd h0 (by omega)
        · exact absurd h0 (by omega)
        · have ht : (((p : Int) + 1).toNat) = p + 1 := by omega
          rw [ht] at h0
          exact Or.inr (Or.inr (Or.inr (Or.inr (Or.inr (Or.inr (Or.inr ⟨hg, h0⟩))))))
      · right; right; right; left; omega
  · intro hb
    apply List.any_eq_true.mpr
    unfold BorderSpec at hb
    rcases hb with h0 | h0 | h0 | h0 | ⟨h1, h2⟩ | ⟨h1, h2⟩ | ⟨h1, h2⟩ | ⟨h1, h2⟩
    · -- top row: up neighbor out of bounds
      refine ⟨(p : Int) - (w : Int), by simp [nbrs], ?_⟩
      have hplt : p < w := hy0.mp h0
      have hf : (p : Int) - (w : Int) < 0 := by omega
      simp only [Bool.or_eq_true, decide_eq_true_iff]
      exact Or.inl (Or.inl hf)
    · -- bottom row: down neighbor out of bounds
      refine ⟨(p : Int) + (w : Int), by simp [nbrs], ?_⟩
      have hge : w * h ≤ p + w := hyh.mpr h0
      have hf : ((w * h : Nat) : Int) ≤ (p : Int) + (w : Int) := by omega
      simp only [Bool.or_eq_true, decide_eq_true_iff]
      exact Or.inl (Or.inr hf)
    · -- left column: sentinel -1
      refine ⟨if 0 < p % w then (p : Int) - 1 else -1, by simp [nbrs], ?_⟩
      rw [if_neg (by omega)]
      have hf : (-1 : Int) < 0 := by omega
      simp only [Bool.or_eq_true, decide_eq_true_iff]
      exact Or.inl (Or.inl hf)
    · -- right column: sentinel -1
      refine ⟨if p % w < w - 1 then (p : Int) + 1 else -1, by simp [nbrs], ?_⟩
      rw [if_neg (by omega)]
      have hf : (-1 : Int) < 0 := by omega
      simp only [Bool.or_eq_true, decide_eq_true_iff]
      exact Or.inl (Or.inl hf)
    · -- interior up neighbor in another region
      refine ⟨(p : Int) - (w : Int), by simp [nbrs], ?_⟩
      have hwp : w ≤ p := by
        by_contra hcon
        have : p / w = 0 := Nat.div_eq_of_lt (by omega)
        omega
      have ht : (((p : Int) - (w : Int)).toNat) = p - w := by omega
      have hf : rmap (((p : Int) - (w : Int)).toNat) ≠ rid := by rw [ht]; exact h2
      simp only [Bool.or_eq_true, decide_eq_true_iff]
      exact Or.inr hf
    · -- interior down neighbor in another region
      refine ⟨(p : Int) + (w : Int), by simp [nbrs], ?_⟩
      have ht : (((p : Int) + (w : Int)).toNat) = p + w := by omega
      have hf : rmap (((p : Int) + (w : Int)).toNat) ≠ rid := by rw [ht]; exact h2
      simp only [Bool.or_eq_true, decide_eq_true_iff]
      exact Or.inr hf
    · -- interior left neighbor in another region
      refine ⟨if 0 < p % w then (p : Int) - 1 else -1, by simp [nbrs], ?_⟩
      rw [if_pos h1]
      have hp1 : 0 < p := by omega
      have ht : (((p : Int) - 1).toNat) = p - 1 := by omega
      have hf : rmap (((p : Int) - 1).toNat) ≠ rid := by rw [ht]; exact h2
      simp only [Bool.or_eq_true, decide_eq_true_iff]
      exact Or.inr hf
    · -- interior right neighbor in another region
      refine ⟨if p % w < w - 1 then (p : Int) + 1 else -1, by simp [nbrs], ?_⟩
      rw [if_pos h1]
      have ht : (((p : Int) + 1).toNat) = p + 1 := by omega
      have hf : rmap (((p : Int) + 1).toNat) ≠ rid := by rw [ht]; exact h2
      simp only [Bool.or_eq_true, decide_eq_true_iff]
      exact Or.inr hf

/-- C5: a region's `borderPixels` is the subset of its pixels having some
4-neighbor out of the image bounds or mapped to a different region. -/
theorem border_pixels_characterized (width height maxColors : Nat) (data : Nat → Nat)
    (samples : List Nat) (hw : 0 < width) (hh : 0 < height) (r : Region)
    (hr : r ∈ (processImageForColoring width height data maxColors samples).regions) :
    (∀ q ∈ r.borderPixels, q ∈ r.pixels) ∧
    ∀ p ∈ r.pixels,
      (p ∈ r.borderPixels ↔ BorderSpec width height
        (processImageForColoring width height data maxColors samples).regionMap r.id p) := by
  have hreg : (processImageForColoring width height data maxColors samples).regions =
      pipeFinalized width data (width * height) samples := rfl
  have hmap : (processImageForColoring width height data maxColors samples).regionMap =
      (pipeMerged width data (width * height) samples).regionMap := rfl
  rw [hreg] at hr
  rw [hmap]
  obtain ⟨r0, hr0mem, hr0act, hfin, hpx, hid⟩ :=
    pipeFinal_src width data (width * height) samples r hr
  have hfields := finalizeRegion_fields width (width * height)
    (pipeMerged width data (width * height) samples).regionMap r0
  have hborder : r.borderPixels = r0.pixels.filter
      (isBorderPixel width (width * height)
        (pipeMerged width data (width * height) samples).regionMap r0.id) := by
    rw [hfin]
    exact hfields.2.2.2
  constructor
  · intro q hq
    rw [hborder] at hq
    rw [hpx]
    exact List.mem_of_mem_filter hq
  · intro p hp
    rw [hborder, List.mem_filter, hid]
    have hplt : p < width * height :=
      (pipeFinal_rmap width data (width * height) samples r hr p hp).2
    rw [hpx] at hp
    rw [isBorder_iff width height hw hh _ r0.id p hplt]
    constructor
    · intro hcase
      exact hcase.2
    · intro hcase
      exact ⟨hp, hcase⟩

theorem border_pixels_characterized_witness :
    (0 < 2 ∧ 0 < 2 ∧
      (processImageForColoring 2 2 dataTB 2 [0, 2]).regions.getD 0 defaultRegion ∈
        (processImageForColoring 2 2 dataTB 2 [0, 2]).regions) ∧
    ((∀ q ∈ ((processImageForColoring 2 2 dataTB 2 [0, 2]).regions.getD 0
        defaultRegion).borderPixels,
      q ∈ ((processImageForColoring 2 2 dataTB 2 [0, 2]).regions.getD 0
        defaultRegion).pixels) ∧
    ∀ p ∈ ((processImageForColoring 2 2 dataTB 2 [0, 2]).regions.getD 0
        defaultRegion).pixels,
      (p ∈ ((processImageForColoring 2 2 dataTB 2 [0, 2]).regions.getD 0
          defaultRegion).borderPixels ↔
        BorderSpec 2 2 (processImageForColoring 2 2 dataTB 2 [0, 2]).regionMap
          ((processImageForColoring 2 2 dataTB 2 [0, 2]).regions.getD 0 defaultRegion).id
          p)) :=
  ⟨⟨by decide, by decide, by decide⟩,
    border_pixels_characterized 2 2 2 dataTB [0, 2] (by decide) (by decide) _ (by decide)⟩

/-! ### C8: the Int8Array assignment store -/

theorem updateCentroids_len (data : Nat → Nat) (pc : Nat) (cents : List RGB) :
    (updateCentroids data pc cents).1.length = cents.length := by
  simp [updateCentroids]

theorem kmeansLoop_len (data : Nat → Nat) (pc : Nat) :
    ∀ (fuel : Nat) (cents : List RGB),
      (kmeansLoop data pc cents fuel).1.length = cents.length ∧
      (kmeansLoop data pc cents fuel).2.length = cents.length := by
  intro fuel
  induction fuel with
  | zero =>
    intro cents
    exact ⟨updateCentroids_len data pc cents, rfl⟩
  | succ n ih =>
    intro cents
    cases hch : (updateCentroids data pc cents).2 with
    | true =>
      have h1 : kmeansLoop data pc cents (n + 1) =
          kmeansLoop data pc (updateCentroids data pc cents).1 n := by
        simp [kmeansLoop, hch]
      rw [h1]
      obtain ⟨ha, hb⟩ := ih (updateCentroids data pc cents).1
      rw [ha, hb, updateCentroids_len]
      exact ⟨rfl, rfl⟩
    | false =>
      have h1 : kmeansLoop data pc cents (n + 1) =
          ((updateCentroids data pc cents).1, cents) := by
        simp [kmeansLoop, hch]
      rw [h1]
      exact ⟨updateCentroids_len data pc cents, rfl⟩

theorem bestCluster_lt (cents : List RGB) (hne : cents ≠ []) (r g b : Int) :
    bestCluster cents r g b < cents.length := by
  have hlen : 0 < cents.length := List.length_pos.mpr hne
  have h := foldl_fst_mem
    (fun (acc : Nat × Option Int) c =>
      let cent := cents.getD c ⟨0, 0, 0⟩
      let d := (r - cent.r) ^ 2 + (g - cent.g) ^ 2 + (b - cent.b) ^ 2
      match acc.2 with
      | none => (c, some d)
      | some m => if d < m then (c, some d) else acc)
    (by
      intro acc n
      cases hacc : acc.2 with
      | none => right; simp only [hacc]
      | some m =>
        simp only [hacc]
        split
        · right; rfl
        · left; rfl)
    (List.range cents.length) (0, (none : Option Int))
  rcases h with h | h
  · have h2 : bestCluster cents r g b = 0 := h
    rw [h2]
    exact hlen
  · have h2 : bestCluster cents r g b ∈ List.range cents.length := h
    exact List.mem_range.mp h2

set_option maxRecDepth 10000 in
/-- C8 counterexample: on a 2-pixel black/red image with maxColors = 129
(129 sampled indices), pixel 1 gets argmin cluster 128, and the Int8Array
store wraps it to -128: the stored assignment is neither nonnegative nor
below maxColors. -/
theorem assignment_out_of_range :
    quantizerAssignments dataBR 2 samples129 1 = -128 ∧
    ¬ (0 ≤ quantizerAssignments dataBR 2 samples129 1 ∧
       quantizerAssignments dataBR 2 samples129 1 < 129) := by decide

/-- C8 amended: when 2 ≤ maxColors ≤ 128 (so argmin indices fit in an
Int8Array), every stored assignment is the argmin cluster index of its
pixel against the centroids of the last executed pass, and lies in
[0, maxColors). -/
theorem quantizer_assignment_in_range (data : Nat → Nat) (pc : Nat) (samples : List Nat)
    (maxColors : Nat) (i : Nat) (h2 : 2 ≤ maxColors) (h128 : maxColors ≤ 128)
    (hlen : samples.length = maxColors) :
    0 ≤ quantizerAssignments data pc samples i ∧
    quantizerAssignments data pc samples i < (maxColors : Int) ∧
    ∃ cs : List RGB, cs.length = maxColors ∧
      quantizerAssignments data pc samples i =
        Int.ofNat (bestCluster cs (data (4 * i)) (data (4 * i + 1)) (data (4 * i + 2))) := by
  have hclen : (kmeansResult data pc samples).2.length = maxColors := by
    have hit := (kmeansLoop_len data pc 9 (initialCentroids data samples)).2
    unfold kmeansResult
    rw [hit]
    unfold initialCentroids
    rw [List.length_map]
    exact hlen
  have hne : (kmeansResult data pc samples).2 ≠ [] :=
    List.length_pos.mp (by rw [hclen]; omega)
  have hbc := bestCluster_lt (kmeansResult data pc samples).2 hne
    (data (4 * i)) (data (4 * i + 1)) (data (4 * i + 2))
  rw [hclen] at hbc
  have hcast : Int.ofNat (bestCluster (kmeansResult data pc samples).2
      (data (4 * i)) (data (4 * i + 1)) (data (4 * i + 2))) =
      ((bestCluster (kmeansResult data pc samples).2
      (data (4 * i)) (data (4 * i + 1)) (data (4 * i + 2)) : Nat) : Int) := rfl
  have heq : quantizerAssignments data pc samples i =
      Int.ofNat (bestCluster (kmeansResult data pc samples).2
        (data (4 * i)) (data (4 * i + 1)) (data (4 * i + 2))) := by
    unfold quantizerAssignments
    exact int8_eq_self _ (by omega) (by omega)
  refine ⟨?_, ?_, (kmeansResult data pc samples).2, hclen, heq⟩
  · rw [heq]; omega
  · rw [heq]; omega

theorem quantizer_assignment_in_range_witness :
    (2 ≤ 2 ∧ 2 ≤ 128 ∧ ([0, 1] : List Nat).length = 2) ∧
    (0 ≤ quantizerAssignments dataBR 2 [0, 1] 1 ∧
     quantizerAssignments dataBR 2 [0, 1] 1 < (2 : Int) ∧
     ∃ cs : List RGB, cs.length = 2 ∧
       quantizerAssignments dataBR 2 [0, 1] 1 =
         Int.ofNat (bestCluster cs (dataBR (4 * 1)) (dataBR (4 * 1 + 1))
           (dataBR (4 * 1 + 2)))) :=
  ⟨⟨by decide, by decide, by decide⟩,
    quantizer_assignment_in_range dataBR 2 [0, 1] 2 1 (by decide) (by decide) (by decide)⟩

/-! ### C9: the hexadecimal digit expansion -/

theorem hexDigitChar_mem : ∀ d, d < 16 → hexDigitChar d ∈ hexChars := by decide

theorem hexChars_indexOf : ∀ d, d < 16 → hexChars.indexOf (hexDigitChar d) = d := by decide

theorem hexDigitsAux_small (fuel n : Nat) (hn : n < 16) :
    hexDigitsAux fuel n = [hexDigitChar n] := by
  cases fuel with
  | zero => rfl
  | succ f => simp only [hexDigitsAux, if_pos hn]

theorem hexDigitsAux_irrel (n : Nat) : ∀ f1 f2, n ≤ f1 → n ≤ f2 →
    hexDigitsAux f1 n = hexDigitsAux f2 n := by
  induction n using Nat.strong_induction_on with
  | _ n ih =>
    intro f1 f2 h1 h2
    by_cases hn : n < 16
    · rw [hexDigitsAux_small f1 n hn, hexDigitsAux_small f2 n hn]
    · have h16 : 16 ≤ n := by omega
      obtain ⟨g1, rfl⟩ : ∃ g1, f1 = g1 + 1 := ⟨f1 - 1, by omega⟩
      obtain ⟨g2, rfl⟩ : ∃ g2, f2 = g2 + 1 := ⟨f2 - 1, by omega⟩
      simp only [hexDigitsAux, if_neg hn]
      have hdiv : n / 16 < n := Nat.div_lt_self (by omega) (by omega)
      rw [ih (n / 16) hdiv g1 g2 (by omega) (by omega)]

theorem hexDigits_base (n : Nat) (h : n < 16) : hexDigits n = [hexDigitChar n] :=
  hexDigitsAux_small (n + 1) n h

theorem hexDigits_step (n : Nat) (h : 16 ≤ n) :
    hexDigits n = hexDigits (n / 16) ++ [hexDigitChar (n % 16)] := by
  unfold hexDigits
  have h1 : hexDigitsAux (n + 1) n =
      hexDigitsAux n (n / 16) ++ [hexDigitChar (n % 16)] := by
    simp only [hexDigitsAux, if_neg (by omega : ¬ n < 16)]
  rw [h1]
  have hdiv : n / 16 < n := Nat.div_lt_self (by omega) (by omega)
  rw [hexDigitsAux_irrel (n / 16) n (n / 16 + 1) (by omega) (by omega)]

theorem hexDigits_split (k : Nat) : ∀ a m, 0 < a → m < 16 ^ k →
    hexDigits (a * 16 ^ k + m) = hexDigits a ++ padHex k m := by
  induction k with
  | zero =>
    intro a m ha hm
    simp only [pow_zero] at hm
    have hm0 : m = 0 := by omega
    subst hm0
    rw [pow_zero, Nat.mul_one, Nat.add_zero]
    show hexDigits a = hexDigits a ++ []
    rw [List.append_nil]
  | succ k ih =>
    intro a m ha hm
    have hpow : (16 : Nat) ^ (k + 1) = 16 ^ k * 16 := by ring
    have hp : 0 < (16 : Nat) ^ k := pow_pos (by omega) k
    have h16 : 16 ≤ a * 16 ^ (k + 1) + m := by
      have hl : 1 * 16 ^ (k + 1) ≤ a * 16 ^ (k + 1) := Nat.mul_le_mul_right _ ha
      rw [Nat.one_mul] at hl
      have h2 : 1 * 16 ≤ 16 ^ k * 16 := Nat.mul_le_mul_right 16 hp
      rw [Nat.one_mul] at h2
      have h3 : (16 : Nat) ^ (k + 1) = 16 ^ k * 16 := hpow
      omega
    rw [hexDigits_step _ h16]
    have hdiv : (a * 16 ^ (k + 1) + m) / 16 = a * 16 ^ k + m / 16 := by
      rw [hpow, show a * (16 ^ k * 16) + m = 16 * (a * 16 ^ k) + m by ring,
        Nat.mul_add_div (by omega)]
    have hmod : (a * 16 ^ (k + 1) + m) % 16 = m % 16 := by
      rw [hpow, show a * (16 ^ k * 16) + m = 16 * (a * 16 ^ k) + m by ring,
        Nat.mul_add_mod]
    have hmlt : m / 16 < 16 ^ k := by
      rw [hpow] at hm
      exact Nat.div_lt_iff_lt_mul (by omega) |>.mpr hm
    rw [hdiv, hmod, ih a (m / 16) ha hmlt]
    show hexDigits a ++ padHex k (m / 16) ++ [hexDigitChar (m % 16)] =
      hexDigits a ++ (padHex k (m / 16) ++ [hexDigitChar (m % 16)])
    rw [List.append_assoc]

theorem padHex_split (k : Nat) : ∀ j x y, y < 16 ^ k →
    padHex (j + k) (x * 16 ^ k + y) = padHex j x ++ padHex k y := by
  induction k with
  | zero =>
    intro j x y hy
    simp only [pow_zero] at hy
    have hy0 : y = 0 := by omega
    subst hy0
    rw [pow_zero, Nat.mul_one, Nat.add_zero, Nat.add_zero]
    show padHex j x = padHex j x ++ []
    rw [List.append_nil]
  | succ k ih =>
    intro j x y hy
    have hpow : (16 : Nat) ^ (k + 1) = 16 ^ k * 16 := by ring
    have hdiv : (x * 16 ^ (k + 1) + y) / 16 = x * 16 ^ k + y / 16 := by
      rw [hpow, show x * (16 ^ k * 16) + y = 16 * (x * 16 ^ k) + y by ring,
        Nat.mul_add_div (by omega)]
    have hmod : (x * 16 ^ (k + 1) + y) % 16 = y % 16 := by
      rw [hpow, show x * (16 ^ k * 16) + y = 16 * (x * 16 ^ k) + y by ring,
        Nat.mul_add_mod]
    have hylt : y / 16 < 16 ^ k := by
      rw [hpow] at hy
      exact Nat.div_lt_iff_lt_mul (by omega) |>.mpr hy
    show padHex (j + k) ((x * 16 ^ (k + 1) + y) / 16) ++
        [hexDigitChar ((x * 16 ^ (k + 1) + y) % 16)] =
      padHex j x ++ (padHex k (y / 16) ++ [hexDigitChar (y % 16)])
    rw [hdiv, hmod, ih j x (y / 16) hylt, List.append_assoc]

theorem padHex_two (v : Nat) (hv : v < 256) :
    padHex 2 v = [hexDigitChar (v / 16), hexDigitChar (v % 16)] := by
  have h1 : v / 16 % 16 = v / 16 :=
    Nat.mod_eq_of_lt (Nat.div_lt_iff_lt_mul (by omega) |>.mpr (by omega))
  show (padHex 0 (v / 16 / 16) ++ [hexDigitChar (v / 16 % 16)]) ++
      [hexDigitChar (v % 16)] = _
  rw [h1]
  rfl

theorem rgbToHex_toList (c : RGB) (hc : InByteRange c) :
    (rgbToHex c.r c.g c.b).toList =
      '#' :: (padHex 2 c.r.toNat ++ (padHex 2 c.g.toNat ++ padHex 2 c.b.toNat)) := by
  obtain ⟨hr0, hr1, hg0, hg1, hb0, hb1⟩ := hc
  have hrb : c.r.toNat ≤ 255 := by omega
  have hgb : c.g.toNat ≤ 255 := by omega
  have hbb : c.b.toNat ≤ 255 := by omega
  have hN : 2 ^ 24 + c.r.toNat * 2 ^ 16 + c.g.toNat * 2 ^ 8 + c.b.toNat =
      1 * 16 ^ 6 + ((c.r.toNat * 16 ^ 2 + c.g.toNat) * 16 ^ 2 + c.b.toNat) := by
    have e1 : (2 : Nat) ^ 24 = 16 ^ 6 := by norm_num
    have e2 : (2 : Nat) ^ 16 = 16 ^ 4 := by norm_num
    have e3 : (2 : Nat) ^ 8 = 16 ^ 2 := by norm_num
    rw [e1, e2, e3]
    ring
  have hmlt : (c.r.toNat * 16 ^ 2 + c.g.toNat) * 16 ^ 2 + c.b.toNat < 16 ^ 6 := by
    rw [show (16 : Nat) ^ 2 = 256 by norm_num, show (16 : Nat) ^ 6 = 16777216 by norm_num]
    omega
  have hdig : hexDigits (2 ^ 24 + c.r.toNat * 2 ^ 16 + c.g.toNat * 2 ^ 8 + c.b.toNat) =
      hexDigits 1 ++ padHex 6 ((c.r.toNat * 16 ^ 2 + c.g.toNat) * 16 ^ 2 + c.b.toNat) := by
    rw [hN]
    exact hexDigits_split 6 1 _ (by omega) hmlt
  have hs1 : padHex 6 ((c.r.toNat * 16 ^ 2 + c.g.toNat) * 16 ^ 2 + c.b.toNat) =
      padHex 4 (c.r.toNat * 16 ^ 2 + c.g.toNat) ++ padHex 2 c.b.toNat :=
    padHex_split 2 4 _ _ (by rw [show (16 : Nat) ^ 2 = 256 by norm_num]; omega)
  have hs2 : padHex 4 (c.r.toNat * 16 ^ 2 + c.g.toNat) =
      padHex 2 c.r.toNat ++ padHex 2 c.g.toNat :=
    padHex_split 2 2 _ _ (by rw [show (16 : Nat) ^ 2 = 256 by norm_num]; omega)
  have h1 : hexDigits 1 = [hexDigitChar 1] := hexDigits_base 1 (by omega)
  have htl : (rgbToHex c.r c.g c.b).toList =
      '#' :: (hexDigits (2 ^ 24 + c.r.toNat * 2 ^ 16 + c.g.toNat * 2 ^ 8 +
        c.b.toNat)).drop 1 := rfl
  rw [htl, hdig, h1]
  simp only [List.singleton_append, List.drop_succ_cons, List.drop_zero]
  rw [hs1, hs2, List.append_assoc]

theorem rgbToHex_roundtrip (c : RGB) (hc : InByteRange c) :
    IsLowerHex (rgbToHex c.r c.g c.b) ∧
    parseHexColor (rgbToHex c.r c.g c.b) = some (c.r, (c.g, c.b)) := by
  obtain ⟨hr0, hr1, hg0, hg1, hb0, hb1⟩ := hc
  have hrlt : c.r.toNat < 256 := by omega
  have hglt : c.g.toNat < 256 := by omega
  have hblt : c.b.toNat < 256 := by omega
  have htl := rgbToHex_toList c ⟨hr0, hr1, hg0, hg1, hb0, hb1⟩
  rw [padHex_two _ hrlt, padHex_two _ hglt, padHex_two _ hblt] at htl
  have htl2 : (rgbToHex c.r c.g c.b).toList =
      ['#', hexDigitChar (c.r.toNat / 16), hexDigitChar (c.r.toNat % 16),
       hexDigitChar (c.g.toNat / 16), hexDigitChar (c.g.toNat % 16),
       hexDigitChar (c.b.toNat / 16), hexDigitChar (c.b.toNat % 16)] := by
    rw [htl]
    rfl
  have hd1 : c.r.toNat / 16 < 16 := Nat.div_lt_iff_lt_mul (by omega) |>.mpr (by omega)
  have hd2 : c.r.toNat % 16 < 16 := Nat.mod_lt _ (by omega)
  have hd3 : c.g.toNat / 16 < 16 := Nat.div_lt_iff_lt_mul (by omega) |>.mpr (by omega)
  have hd4 : c.g.toNat % 16 < 16 := Nat.mod_lt _ (by omega)
  have hd5 : c.b.toNat / 16 < 16 := Nat.div_lt_iff_lt_mul (by omega) |>.mpr (by omega)
  have hd6 : c.b.toNat % 16 < 16 := Nat.mod_lt _ (by omega)
  constructor
  · refine ⟨?_, ?_, ?_⟩
    · rw [htl2]; rfl
    · rw [htl2]; rfl
    · rw [htl2]
      intro ch hch
      simp only [List.drop_succ_cons, List.drop_zero, List.mem_cons,
        List.not_mem_nil, or_false] at hch
      rcases hch with rfl | rfl | rfl | rfl | rfl | rfl
      · exact hexDigitChar_mem _ hd1
      · exact hexDigitChar_mem _ hd2
      · exact hexDigitChar_mem _ hd3
      · exact hexDigitChar_mem _ hd4
      · exact hexDigitChar_mem _ hd5
      · exact hexDigitChar_mem _ hd6
  · have hmem : ∀ d, d < 16 → (hexChars.contains (hexDigitChar d)) = true := by decide
    unfold parseHexColor
    rw [htl2]
    have hcond : ([hexDigitChar (c.r.toNat / 16), hexDigitChar (c.r.toNat % 16),
        hexDigitChar (c.g.toNat / 16), hexDigitChar (c.g.toNat % 16),
        hexDigitChar (c.b.toNat / 16), hexDigitChar (c.b.toNat % 16)].all
        (fun ch => hexChars.contains ch)) = true := by
      simp only [List.all_cons, List.all_nil, Bool.and_true, Bool.and_eq_true]
      exact ⟨hmem _ hd1, hmem _ hd2, hmem _ hd3, hmem _ hd4, hmem _ hd5, hmem _ hd6⟩
    show (if ([hexDigitChar (c.r.toNat / 16), hexDigitChar (c.r.toNat % 16),
        hexDigitChar (c.g.toNat / 16), hexDigitChar (c.g.toNat % 16),
        hexDigitChar (c.b.toNat / 16), hexDigitChar (c.b.toNat % 16)].all
        (fun ch => hexChars.contains ch)) = true then
        some (((hexChars.indexOf (hexDigitChar (c.r.toNat / 16)) * 16 +
                hexChars.indexOf (hexDigitChar (c.r.toNat % 16)) : Nat) : Int),
              (((hexChars.indexOf (hexDigitChar (c.g.toNat / 16)) * 16 +
                 hexChars.indexOf (hexDigitChar (c.g.toNat % 16)) : Nat) : Int),
               ((hexChars.indexOf (hexDigitChar (c.b.toNat / 16)) * 16 +
                 hexChars.indexOf (hexDigitChar (c.b.toNat % 16)) : Nat) : Int)))
      else none) = some (c.r, (c.g, c.b))
    rw [if_pos hcond, hexChars_indexOf _ hd1, hexChars_indexOf _ hd2,
      hexChars_indexOf _ hd3, hexChars_indexOf _ hd4,
      hexChars_indexOf _ hd5, hexChars_indexOf _ hd6]
    have hr2 : c.r.toNat / 16 * 16 + c.r.toNat % 16 = c.r.toNat := by omega
    have hg2 : c.g.toNat / 16 * 16 + c.g.toNat % 16 = c.g.toNat := by omega
    have hb2 : c.b.toNat / 16 * 16 + c.b.toNat % 16 = c.b.toNat := by omega
    rw [hr2, hg2, hb2, Int.toNat_of_nonneg hr0, Int.toNat_of_nonneg hg0,
      Int.toNat_of_nonneg hb0]

/-! ### C9: every centroid the pipeline can produce has byte-range channels -/

theorem foldl_condSum_le (f : Nat → Nat) (hf : ∀ p, f p ≤ 255) (q : Nat × Nat → Bool) :
    ∀ (l : List (Nat × Nat)) (s : Nat),
      l.foldl (fun s2 p => if q p then s2 + f p.1 else s2) s ≤ s + 255 * l.countP q := by
  intro l
  induction l with
  | nil => intro s; simp
  | cons p t ih =>
    intro s
    rw [List.foldl_cons, List.countP_cons]
    by_cases hq : q p = true
    · rw [if_pos hq, hq, if_pos rfl]
      have h1 := ih (s + f p.1)
      have h2 := hf p.1
      omega
    · rw [if_neg hq]
      have hq2 : (if q p = true then 1 else 0) = 0 := by rw [if_neg hq]
      rw [hq2]
      have h1 := ih s
      omega

theorem countP_zip_snd_le (c : Nat) : ∀ (l1 l2 : List Nat),
    (l1.zip l2).countP (fun p => p.2 == c) ≤ l2.countP (fun a => a == c) := by
  intro l1
  induction l1 with
  | nil => intro l2; simp [List.zip]
  | cons a t ih =>
    intro l2
    cases l2 with
    | nil => simp [List.zip]
    | cons b t2 =>
      rw [List.zip_cons_cons, List.countP_cons, List.countP_cons]
      have hfg : (if ((a, b).2 == c) = true then 1 else 0) =
          (if (b == c) = true then 1 else 0) := rfl
      rw [hfg]
      have h1 := ih t2
      omega

theorem clusterSum_le (data : Nat → Nat) (hdata : ∀ i, data i ≤ 255) (pc : Nat)
    (al : List Nat) (off c : Nat) :
    clusterSum data pc al off c ≤ 255 * clusterCount al c := by
  have h1 : clusterSum data pc al off c ≤
      0 + 255 * (((List.range pc).zip al).countP (fun p => p.2 == c)) :=
    foldl_condSum_le (fun i => data (4 * i + off)) (fun i => hdata (4 * i + off))
      (fun p => p.2 == c) ((List.range pc).zip al) 0
  have h2 := countP_zip_snd_le c (List.range pc) al
  have h3 : 255 * (((List.range pc).zip al).countP (fun p => p.2 == c)) ≤
      255 * (al.countP (fun a => a == c)) := Nat.mul_le_mul_left 255 h2
  unfold clusterCount
  omega

theorem roundDiv_le (s n : Nat) (hn : 0 < n) (hs : s ≤ 255 * n) : roundDiv s n ≤ 255 := by
  unfold roundDiv
  have h1 : 2 * s + n < 256 * (2 * n) := by omega
  have h2 : (2 * s + n) / (2 * n) < 256 := Nat.div_lt_iff_lt_mul (by omega) |>.mpr h1
  omega

theorem initialCentroids_range (data : Nat → Nat) (hdata : ∀ i, data i ≤ 255)
    (samples : List Nat) : ∀ c ∈ initialCentroids data samples, InByteRange c := by
  intro c hc
  have hc2 : c ∈ samples.map (fun s =>
      RGB.mk (data (4 * s)) (data (4 * s + 1)) (data (4 * s + 2))) := hc
  obtain ⟨s, hs, hcs⟩ := List.mem_map.mp hc2
  rw [← hcs]
  have h1 := hdata (4 * s)
  have h2 := hdata (4 * s + 1)
  have h3 := hdata (4 * s + 2)
  unfold InByteRange
  refine ⟨?_, ?_, ?_, ?_, ?_, ?_⟩
  · show (0 : Int) ≤ ((data (4 * s) : Nat) : Int)
    omega
  · show ((data (4 * s) : Nat) : Int) ≤ 255
    omega
  · show (0 : Int) ≤ ((data (4 * s + 1) : Nat) : Int)
    omega
  · show ((data (4 * s + 1) : Nat) : Int) ≤ 255
    omega
  · show (0 : Int) ≤ ((data (4 * s + 2) : Nat) : Int)
    omega
  · show ((data (4 * s + 2) : Nat) : Int) ≤ 255
    omega

theorem updateCentroids_range (data : Nat → Nat) (hdata : ∀ i, data i ≤ 255)
    (pc : Nat) (cents : List RGB) (hc : ∀ c ∈ cents, InByteRange c) :
    ∀ c ∈ (updateCentroids data pc cents).1, InByteRange c := by
  intro c hcm
  have hcm2 : c ∈ (List.range cents.length).map (fun j =>
      let cent := cents.getD j ⟨0, 0, 0⟩
      if 0 < clusterCount (passAssign data pc cents) j then
        RGB.mk (roundDiv (clusterSum data pc (passAssign data pc cents) 0 j)
                 (clusterCount (passAssign data pc cents) j))
               (roundDiv (clusterSum data pc (passAssign data pc cents) 1 j)
                 (clusterCount (passAssign data pc cents) j))
               (roundDiv (clusterSum data pc (passAssign data pc cents) 2 j)
                 (clusterCount (passAssign data pc cents) j))
      else cent) := hcm
  obtain ⟨j, hj, hcj⟩ := List.mem_map.mp hcm2
  rw [← hcj]
  dsimp only
  split
  · rename_i hcnt
    have hb0 := roundDiv_le _ _ hcnt
      (clusterSum_le data hdata pc (passAssign data pc cents) 0 j)
    have hb1 := roundDiv_le _ _ hcnt
      (clusterSum_le data hdata pc (passAssign data pc cents) 1 j)
    have hb2 := roundDiv_le _ _ hcnt
      (clusterSum_le data hdata pc (passAssign data pc cents) 2 j)
    unfold InByteRange
    refine ⟨?_, ?_, ?_, ?_, ?_, ?_⟩ <;> dsimp only <;> omega
  · rcases getD_mem_or_default cents j (⟨0, 0, 0⟩ : RGB) with h | h
    · exact hc _ h
    · rw [h]
      unfold InByteRange
      decide

theorem kmeansLoop_range (data : Nat → Nat) (hdata : ∀ i, data i ≤ 255) (pc : Nat) :
    ∀ (fuel : Nat) (cents : List RGB), (∀ c ∈ cents, InByteRange c) →
      (∀ c ∈ (kmeansLoop data pc cents fuel).1, InByteRange c) ∧
      (∀ c ∈ (kmeansLoop data pc cents fuel).2, InByteRange c) := by
  intro fuel
  induction fuel with
  | zero =>
    intro cents hc
    exact ⟨fun c hcm => updateCentroids_range data hdata pc cents hc c hcm, hc⟩
  | succ n ih =>
    intro cents hc
    cases hch : (updateCentroids data pc cents).2 with
    | true =>
      have h1 : kmeansLoop data pc cents (n + 1) =
          kmeansLoop data pc (updateCentroids data pc cents).1 n := by
        simp [kmeansLoop, hch]
      rw [h1]
      exact ih _ (updateCentroids_range data hdata pc cents hc)
    | false =>
      have h1 : kmeansLoop data pc cents (n + 1) =
          ((updateCentroids data pc cents).1, cents) := by
        simp [kmeansLoop, hch]
      rw [h1]
      exact ⟨fun c hcm => updateCentroids_range data hdata pc cents hc c hcm, hc⟩

theorem pipePalette_spec (data : Nat → Nat) (hdata : ∀ i, data i ≤ 255) (pc : Nat)
    (samples : List Nat) :
    ∀ e ∈ pipePalette data pc samples,
      InByteRange e.rgb ∧ e.hex = rgbToHex e.rgb.r e.rgb.g e.rgb.b := by
  intro e he
  have he2 : e ∈ buildPalette (kmeansResult data pc samples).1
      (pipeUnique data pc samples) := he
  unfold buildPalette at he2
  obtain ⟨j, hj, hej⟩ := List.mem_map.mp he2
  have hrange : ∀ c2 ∈ (kmeansResult data pc samples).1, InByteRange c2 :=
    (kmeansLoop_range data hdata pc 9 (initialCentroids data samples)
      (initialCentroids_range data hdata samples)).1
  rw [← hej]
  constructor
  · show InByteRange ((kmeansResult data pc samples).1.getD
      ((pipeUnique data pc samples).getD j 0).toNat ⟨0, 0, 0⟩)
    rcases getD_mem_or_default (kmeansResult data pc samples).1
        ((pipeUnique data pc samples).getD j 0).toNat (⟨0, 0, 0⟩ : RGB) with h | h
    · exact hrange _ h
    · rw [h]
      unfold InByteRange
      decide
  · rfl

theorem updateCounts_src (rs : List Region) : ∀ (pal : List PaletteColor),
    ∀ e ∈ updateCounts pal rs, ∃ e0 ∈ pal, e.rgb = e0.rgb ∧ e.hex = e0.hex := by
  induction rs with
  | nil =>
    intro pal e he
    exact ⟨e, he, rfl, rfl⟩
  | cons r t ih =>
    intro pal e he
    have he2 : e ∈ updateCounts ((List.range pal.length).map (fun j =>
        let e2 := pal.getD j defaultPalette
        if (j : Int) = r.colorId then { e2 with count := e2.count + r.pixels.length }
        else e2)) t := he
    obtain ⟨e1, he1, hrgb, hhex⟩ := ih _ e he2
    obtain ⟨j, hj, hej⟩ := List.mem_map.mp he1
    have hjlt : j < pal.length := List.mem_range.mp hj
    have hrgb1 : e1.rgb = (pal.getD j defaultPalette).rgb := by
      rw [← hej]
      show (if (j : Int) = r.colorId
        then { pal.getD j defaultPalette with
               count := (pal.getD j defaultPalette).count + r.pixels.length }
        else pal.getD j defaultPalette).rgb = (pal.getD j defaultPalette).rgb
      split
      · rfl
      · rfl
    have hhex1 : e1.hex = (pal.getD j defaultPalette).hex := by
      rw [← hej]
      show (if (j : Int) = r.colorId
        then { pal.getD j defaultPalette with
               count := (pal.getD j defaultPalette).count + r.pixels.length }
        else pal.getD j defaultPalette).hex = (pal.getD j defaultPalette).hex
      split
      · rfl
      · rfl
    exact ⟨pal.getD j defaultPalette, getD_mem_of_lt pal j defaultPalette hjlt,
      hrgb.trans hrgb1, hhex.trans hhex1⟩

/-- C9: for a byte-valued pixel buffer, every emitted palette entry's hex
string is the lowercase `#rrggbb` form, and parsing its three two-digit
channels back yields exactly the entry's rgb triple. -/
theorem palette_hex_roundtrip (width height maxColors : Nat) (data : Nat → Nat)
    (samples : List Nat) (hdata : ∀ i, data i ≤ 255) (e : PaletteColor)
    (he : e ∈ (processImageForColoring width height data maxColors samples).palette) :
    IsLowerHex e.hex ∧ parseHexColor e.hex = some (e.rgb.r, (e.rgb.g, e.rgb.b)) := by
  have he2 : e ∈ updateCounts (pipePalette data (width * height) samples)
      (pipeFinalized width data (width * height) samples) := he
  obtain ⟨e0, he0, hrgb, hhex⟩ := updateCounts_src
    (pipeFinalized width data (width * height) samples)
    (pipePalette data (width * height) samples) e he2
  obtain ⟨hbr, hhex0⟩ := pipePalette_spec data hdata (width * height) samples e0 he0
  rw [hhex, hhex0, hrgb]
  exact rgbToHex_roundtrip e0.rgb hbr

theorem palette_hex_roundtrip_witness :
    ((∀ i, dataTB i ≤ 255) ∧
      (processImageForColoring 2 2 dataTB 2 [0, 2]).palette.getD 0 defaultPalette ∈
        (processImageForColoring 2 2 dataTB 2 [0, 2]).palette) ∧
    (IsLowerHex ((processImageForColoring 2 2 dataTB 2 [0, 2]).palette.getD 0
        defaultPalette).hex ∧
     parseHexColor ((processImageForColoring 2 2 dataTB 2 [0, 2]).palette.getD 0
        defaultPalette).hex =
       some (((processImageForColoring 2 2 dataTB 2 [0, 2]).palette.getD 0
          defaultPalette).rgb.r,
         (((processImageForColoring 2 2 dataTB 2 [0, 2]).palette.getD 0
            defaultPalette).rgb.g,
          ((processImageForColoring 2 2 dataTB 2 [0, 2]).palette.getD 0
            defaultPalette).rgb.b))) :=
  have hd : ∀ i, dataTB i ≤ 255 := by
    intro i
    rcases getD_mem_or_default
      [255, 0, 0, 255, 255, 0, 0, 255, 0, 255, 0, 255, 0, 255, 0, 255] i 0 with h | h
    · exact (by decide :
        ∀ x ∈ [255, 0, 0, 255, 255, 0, 0, 255, 0, 255, 0, 255, 0, 255, 0, 255],
          x ≤ 255) _ h
    · have h2 : dataTB i = 0 := h
      rw [h2]
      decide
  ⟨⟨hd, by decide⟩,
    palette_hex_roundtrip 2 2 2 dataTB [0, 2] hd _ (by decide)⟩

end CBN
